import Mathlib

/-!
The cleanmeta pipeline: path classification, output resolution and the per-file steps.

A shallow embedding of `src/metadata_core.h`, `src/main.cpp` and the worker of
`src/gui_main.cpp`, with the properties proved about it.

* A `std::string` / `fs::path` is a `List Char` (POSIX generic format, separator `/`);
  the path operations follow libstdc++.
* The file system is a function from locations to nodes. A location is a path with
  repeated and trailing separators and `.` names removed; `..` and links are not resolved.
  Hard links and symbolic links are not modelled, and a path names the same location
  as another only up to the spellings just listed: results that compare paths are stated
  for paths spelled plainly (`plain`).
* The collaborators are parameters, collected in `Env`: Exiv2 (it may rewrite the target
  it is given, nothing else), the external qpdf process (it may write the destination
  named in its command line, nothing else), the directory iterator (the entries it
  hands to the loop and whether it ends with an error; `lists_tree` is its contract),
  the refusal of a status query or of a directory creation, the text of an exception.
* A C++ exception is the `Except.error` side of a result; the state reached when it is
  thrown is kept next to it, since the worker catches it and goes on.
-/

namespace CleanMeta

/-! ## Strings and paths (`std::string`, `std::filesystem::path`) -/

/-- A byte string: `std::string`, also the native representation of `fs::path`. -/
abbrev Str := List Char

/-- Library call `std::tolower` in the "C" locale: only `A`..`Z` are changed. -/
def tolower (c : Char) : Char :=
  if 65 ≤ c.toNat ∧ c.toNat ≤ 90 then Char.ofNat (c.toNat + 32) else c

/-- The loop `for (auto& c : ext) c = std::tolower(c);`. -/
def lower (s : Str) : Str := s.map tolower

/-- Directory separator test. -/
def is_sep (c : Char) : Bool := c == '/'

/-- One scan of a path that keeps, in the pair `(d, n)`, the text up to and including
the last separator met and the characters after it. -/
def split_last : Str → Str × Str → Str × Str
  | [], dn => dn
  | c :: cs, dn =>
    if is_sep c then split_last cs (dn.1 ++ dn.2 ++ [c], []) else split_last cs (dn.1, dn.2 ++ [c])

/-- Library call `path::filename()`: the last component, empty when the path ends in a separator. -/
def filename (p : Str) : Str := (split_last p ([], [])).2

/-- Library call `path::remove_filename()`: the path without its `filename()`. -/
def remove_filename (p : Str) : Str := (split_last p ([], [])).1

/-- Library call `string::rfind('.')`: index of the last dot, `none` for `npos`. -/
def rfind_dot : Str → Option Nat
  | [] => none
  | c :: cs =>
    match rfind_dot cs with
    | some i => some (i + 1)
    | none => if c == '.' then some 0 else none

/-- The position computed by `path::_M_find_extension` on the filename `s`:
`none` (npos) when `s` is empty, when `s` has at most two characters and starts with a
dot, when there is no dot, or when the only dot is the first character. -/
def find_extension (s : Str) : Option Nat :=
  match s with
  | [] => none
  | c :: _ =>
    if s.length ≤ 2 ∧ c = '.' then none
    else
      match rfind_dot s with
      | some 0 => none
      | some pos => some pos
      | none => none

/-- Library call `path::extension()`. -/
def extension (p : Str) : Str :=
  match find_extension (filename p) with
  | some pos => (filename p).drop pos
  | none => []

/-- Library call `path::stem()`. -/
def stem (p : Str) : Str :=
  match find_extension (filename p) with
  | some pos => (filename p).take pos
  | none => filename p

/-- Library call `path::is_absolute()` on POSIX: the path starts with a separator. -/
def is_absolute (p : Str) : Bool :=
  match p with
  | c :: _ => is_sep c
  | [] => false

/-- Library call `path::has_filename()`. -/
def has_filename (p : Str) : Bool := !(filename p).isEmpty

/-- Library call `path::has_relative_path()` on POSIX: some character is not a separator. -/
def has_relative_path (p : Str) : Bool := p.any (fun c => !is_sep c)

/-- Library call `operator/` (POSIX): an absolute right operand, or an empty left one, replaces the
path; otherwise a separator is added when the left operand has a filename. -/
def path_append (p q : Str) : Str :=
  if is_absolute q ∨ p = [] then q
  else if has_filename p then p ++ '/' :: q
  else p ++ q

/-- Library call `path::replace_filename(r)`: `remove_filename()` followed by `operator/=(r)`. -/
def replace_filename (p r : Str) : Str := path_append (remove_filename p) r

/-- Remove the separators at the end of a string. -/
def strip_trailing_seps (p : Str) : Str := (p.reverse.dropWhile is_sep).reverse

/-- Library call `path::parent_path()`: the path itself when it has no relative part; otherwise the
pathname up to the end of the component before the last one (the root directory `/` when
that component is the root). -/
def parent_path (p : Str) : Str :=
  if !has_relative_path p then p
  else
    let d := remove_filename p
    if d = [] then []
    else if strip_trailing_seps d = [] then ['/']
    else strip_trailing_seps d

/-- Split at separators, keeping empty pieces. -/
def split_sep : Str → Str → List Str
  | [], acc => [acc]
  | c :: cs, acc => if is_sep c then acc :: split_sep cs [] else split_sep cs (acc ++ [c])

/-- The element sequence a path iterates over: the root directory if the path is
absolute, the non-empty names, and an empty last element when a path with a relative
part ends in a separator. `operator==` on paths compares these sequences. -/
def elements (p : Str) : List Str :=
  (if is_absolute p then [['/']] else [])
    ++ (split_sep p []).filter (fun s => !s.isEmpty)
    ++ (if has_relative_path p ∧ filename p = [] then [[]] else [])

/-- Path equality `operator==(const path&, const path&)`. -/
def path_eq (p q : Str) : Prop := elements p = elements q

/-- A string without separators. -/
def no_sep (s : Str) : Prop := ∀ c ∈ s, is_sep c = false

/-- A string that is a directory part: scanning it leaves no filename. -/
def dir_like (d : Str) : Prop := split_last d ([], []) = (d, [])

/-- The parent path computed from a directory part. -/
def parent_of_dir (d : Str) : Str :=
  if d = [] then [] else if strip_trailing_seps d = [] then ['/'] else strip_trailing_seps d

/-! ## Classification (`is_image`, `is_pdf`) -/

/-- Source function `is_image` (metadata_core.h:55, main.cpp:54). -/
def is_image (p : Str) : Bool :=
  let ext := lower (extension p)
  ext == ".jpg".toList || ext == ".jpeg".toList || ext == ".png".toList
    || ext == ".heic".toList

/-- Source function `is_pdf` (metadata_core.h:61, main.cpp:59). -/
def is_pdf (p : Str) : Bool :=
  let ext := lower (extension p)
  ext == ".pdf".toList

/-- The three content kinds of the dispatch. -/
inductive Kind where
  | image
  | document
  | unsupported
  deriving DecidableEq, Repr

/-- The dispatch chain `if (is_image(p)) .. else if (is_pdf(p)) .. else ..`
(main.cpp:228-234, gui_main.cpp:350-366). -/
def classify (p : Str) : Kind :=
  if is_image p then Kind.image
  else if is_pdf p then Kind.document
  else Kind.unsupported

/-! ## File system model (`std::filesystem` operations) -/

/-- A file-system location: the root marker (for an absolute path) followed by the
names of the path, with empty names and `.` removed. Two spellings of a path that
differ only in repeated or trailing separators or in `.` components have one key;
`..` is a name like any other and symbolic links are not resolved. -/
abbrev Key := List Str

/-- The location a path string names. -/
def key (p : Str) : Key :=
  (if is_absolute p then [['/']] else [])
    ++ (split_sep p []).filter (fun s => !s.isEmpty && s != ['.'])

/-- What a location holds. -/
inductive Node where
  | file (content : List Nat)
  | dir
  deriving DecidableEq, Repr

/-- A file system: what each location holds, `none` when nothing is there. -/
abbrev FS := Key → Option Node

/-- Put a node at a location. -/
def fs_set (fs : FS) (k : Key) (n : Node) : FS := fun q => if q = k then some n else fs q

/-- Remove whatever is at a location. -/
def fs_remove (fs : FS) (k : Key) : FS := fun q => if q = k then none else fs q

/-- A well-formed file system: the working directory and the root are directories, and
whatever exists lies in a directory. -/
def fs_wf (fs : FS) : Prop :=
  fs [] = some Node.dir ∧ fs [['/']] = some Node.dir
    ∧ ∀ (k : Key) (c : Str), (fs (k ++ [c])).isSome = true → fs k = some Node.dir

/-- Each location of the list lies directly below the one before it, the first one
directly below `par`. -/
def chain (par : Key) : List Key → Prop
  | [] => True
  | k :: ks => (∃ c : Str, k = par ++ [c]) ∧ chain k ks

/-- Library call `fs::status(p)`: the empty path names nothing. -/
def status (fs : FS) (p : Str) : Option Node := if p = [] then none else fs (key p)

/-- Library call `fs::exists(p)`. -/
def fs_exists (fs : FS) (p : Str) : Bool := (status fs p).isSome

/-- Library call `fs::is_directory(p)`, the value it returns: whether the location holds a
directory. The throwing overload first fails when `status_throws` holds. -/
def is_directory (fs : FS) (p : Str) : Bool :=
  match status fs p with
  | some Node.dir => true
  | _ => false

/-- Library call `fs::is_regular_file(p)`, the value it returns: whether the location holds
a regular file. The throwing overload first fails when `status_throws` holds. -/
def is_regular_file (fs : FS) (p : Str) : Bool :=
  match status fs p with
  | some (Node.file _) => true
  | _ => false

/-- The exceptions that escape the library calls: each is a
`std::filesystem::filesystem_error` (a `std::exception`). -/
inductive Exn where
  | create_directories_failed
  | copy_file_failed
  | rename_failed
  | status_failed
  | directory_iterator_failed
  deriving DecidableEq, Repr

/-- The collaborators of the pipeline, outside the repository. -/
structure Env where
  /-- Exiv2 on the bytes of the target: whether open/read/clear/write all succeeded, and
  the bytes persisted to the target if any were written. -/
  exiv2 : List Nat → Bool × Option (List Nat)
  /-- Library call `std::system(cmd)` for a qpdf command line, on the current file system: the
  returned status and the bytes written to the destination named in the command, if
  any. The command writes nowhere else. -/
  system_qpdf : Str → FS → Int × Option (List Nat)
  /-- Result of `exe_dir()`. -/
  exe_dir : Str
  /-- Whether `std::system("command -v qpdf >/dev/null 2>&1") == 0`. -/
  command_v_qpdf : Bool
  /-- Whether the operating system refuses to create a directory at a location. -/
  mkdir_denied : FS → Key → Bool
  /-- Whether `fs::status(p)` fails with an error other than "nothing there" (EACCES,
  ELOOP, ENAMETOOLONG and the like) for a path at which the file system of the model
  holds nothing. -/
  status_denied : FS → Str → Bool
  /-- What the loop over `fs::recursive_directory_iterator(p)` gets from an iterator
  created on the given file system: the entries, in the order of the iteration, and
  whether the iteration ends with a `filesystem_error` (the directory, or one below it,
  cannot be opened or read) instead of at the end of the tree. The iterator reads a
  directory when it reaches it, and whether it sees an entry added to a directory it is
  reading is unspecified: the list may hold entries that the loop body created. -/
  readdir : FS → Str → List Str × Bool
  /-- The text of `e.what()`. -/
  what : Exn → Str

/-- Whether the throwing overloads `fs::is_directory(p)` and `fs::is_regular_file(p)`
raise `filesystem_error`: `fs::status(p)` failed with an error other than "nothing
there". The empty path and a location that holds something have a status. -/
def status_throws (env : Env) (fs : FS) (p : Str) : Bool :=
  !p.isEmpty && (status fs p).isNone && env.status_denied fs p

/-- Library call `fs::create_directory` on a location: an existing directory is not an error. -/
def create_directory (env : Env) (fs : FS) (k : Key) : Except Exn Bool × FS :=
  match fs k with
  | some Node.dir => (Except.ok false, fs)
  | some (Node.file _) => (Except.error Exn.create_directories_failed, fs)
  | none =>
    if env.mkdir_denied fs k then (Except.error Exn.create_directories_failed, fs)
    else (Except.ok true, fs_set fs k Node.dir)

/-- The upward walk of `fs::create_directories`, on a location given last name first:
the locations to create, outermost first, or `none` when the walk meets something that
is not a directory (or cannot leave a missing root). The walk stops at the first
existing directory or at the empty path. -/
def collect_missing (fs : FS) : List Str → Option (List Key)
  | [] => some []
  | c :: rest =>
    if rest = [] then (if c = ['/'] then none else some [[c]])
    else
      match fs rest.reverse with
      | some Node.dir => some [(c :: rest).reverse]
      | some (Node.file _) => none
      | none => (collect_missing fs rest).map (fun m => m ++ [(c :: rest).reverse])

/-- The creation loop of `fs::create_directories`: it stops at the first failure and
keeps what was created before it. -/
def mkdir_all (env : Env) : FS → List Key → Except Exn Bool × FS
  | fs, [] => (Except.ok false, fs)
  | fs, k :: ks =>
    match create_directory env fs k with
    | (Except.error e, fs1) => (Except.error e, fs1)
    | (Except.ok b, fs1) =>
      match ks with
      | [] => (Except.ok b, fs1)
      | _ :: _ => mkdir_all env fs1 ks

/-- Library call `fs::create_directories(p)`: error for the empty path and for an existing
non-directory, nothing to do for an existing directory, otherwise create every
missing ancestor and then `p`. -/
def create_directories (env : Env) (fs : FS) (p : Str) : Except Exn Bool × FS :=
  if p = [] then (Except.error Exn.create_directories_failed, fs)
  else
    match fs (key p) with
    | some Node.dir => (Except.ok false, fs)
    | some (Node.file _) => (Except.error Exn.create_directories_failed, fs)
    | none =>
      match collect_missing fs (key p).reverse with
      | none => (Except.error Exn.create_directories_failed, fs)
      | some missing => mkdir_all env fs missing

/-- Library call `fs::copy_file(from, to, options)`: the source must be a regular file; an existing
destination must be a regular file other than the source, and is replaced only with
`overwrite_existing`. -/
def copy_file (fs : FS) (src dst : Str) (overwrite_existing : Bool) : Except Exn FS :=
  match status fs src with
  | some (Node.file c) =>
    match status fs dst with
    | none => if dst = [] then Except.error Exn.copy_file_failed
              else Except.ok (fs_set fs (key dst) (Node.file c))
    | some (Node.file _) =>
      if key src = key dst then Except.error Exn.copy_file_failed
      else if overwrite_existing then Except.ok (fs_set fs (key dst) (Node.file c))
      else Except.error Exn.copy_file_failed
    | some Node.dir => Except.error Exn.copy_file_failed
  | _ => Except.error Exn.copy_file_failed

/-- Library call `fs::rename(old, new)`: the source must exist; a file cannot replace a directory nor
a directory a file; otherwise the node moves to the new location (the entries below a
moved directory are not tracked). -/
def rename (fs : FS) (old new : Str) : Except Exn FS :=
  match status fs old, status fs new with
  | none, _ => Except.error Exn.rename_failed
  | some (Node.file _), some Node.dir => Except.error Exn.rename_failed
  | some Node.dir, some (Node.file _) => Except.error Exn.rename_failed
  | some n, _ =>
    if new = [] then Except.error Exn.rename_failed
    else Except.ok (fs_set (fs_remove fs (key old)) (key new) n)

/-! ## Options and process state -/

/-- Source `struct Options` (metadata_core.h:19, main.cpp:44). -/
structure Options where
  in_place : Bool := false
  backup : Bool := true
  recursive : Bool := false
  out_dir : Str := []
  deriving DecidableEq, Repr

/-- The mutable state the pipeline works on: the file system and the static
`qpdf_path_cached`. -/
structure World where
  fs : FS
  qpdf_path_cached : Str

/-- The single quote character. -/
def squote : Char := Char.ofNat 39

/-- The backslash character. -/
def backslash : Char := Char.ofNat 92

/-- Source function `shell_escape` (metadata_core.h:42, main.cpp:31): open a quote, copy each character,
writing quote-backslash-quote-quote for a single quote, close the quote. -/
def shell_escape (s : Str) : Str :=
  s.foldl
    (fun out c => if c = squote then out ++ [squote, backslash, squote, squote] else out ++ [c])
    [squote]
  ++ [squote]

/-- Source function `find_qpdf` (metadata_core.h:72, main.cpp:70). -/
def find_qpdf (env : Env) (w : World) : Str × World :=
  if w.qpdf_path_cached ≠ [] then (w.qpdf_path_cached, w)
  else
    let candidate := path_append (path_append env.exe_dir "bin".toList) "qpdf".toList
    if fs_exists w.fs candidate then (candidate, { w with qpdf_path_cached := candidate })
    else if env.command_v_qpdf then ("qpdf".toList, { w with qpdf_path_cached := "qpdf".toList })
    else ([], { w with qpdf_path_cached := [] })

/-- The sibling path of the second branch of `default_output`:
`out.replace_filename(in.stem().string() + ".clean" + in.extension().string())`. -/
def clean_sibling (inp : Str) : Str :=
  replace_filename inp (stem inp ++ ".clean".toList ++ extension inp)

/-- Source function `default_output` (metadata_core.h:91, main.cpp:89). -/
def default_output (env : Env) (inp : Str) (opt : Options) (fs : FS) : Except Exn Str × FS :=
  if opt.out_dir ≠ [] then
    match create_directories env fs opt.out_dir with
    | (Except.error e, fs1) => (Except.error e, fs1)
    | (Except.ok _, fs1) => (Except.ok (path_append opt.out_dir (filename inp)), fs1)
  else (Except.ok (clean_sibling inp), fs)

/-- Source lines `fs::path bak = in; bak += ".bak";`. -/
def bak_path (inp : Str) : Str := inp ++ ".bak".toList

/-- Source lines `fs::path tmp = in; tmp += ".tmp.pdf";`. -/
def tmp_path (inp : Str) : Str := inp ++ ".tmp.pdf".toList

/-- The backup step of `clean_image` and `clean_pdf`:
`if (!fs::exists(bak)) fs::copy_file(in, bak);`. -/
def backup_step (fs : FS) (inp : Str) : Except Exn FS :=
  if !fs_exists fs (bak_path inp) then copy_file fs inp (bak_path inp) false else Except.ok fs

/-- The guarded backup of in-place cleaning: `if (opt.backup) { .. backup step .. }`. -/
def backup_if (opt : Options) (fs : FS) (inp : Str) : Except Exn FS :=
  if opt.backup then backup_step fs inp else Except.ok fs

/-- The body of `clean_image` after the copy or backup: open the target with Exiv2
(an exception unless it is a regular file), clear and write the metadata. -/
def strip_image (env : Env) (fs : FS) (target : Str) : Bool × FS :=
  match status fs target with
  | some (Node.file c) =>
    match env.exiv2 c with
    | (ok, some c1) => (ok, fs_set fs (key target) (Node.file c1))
    | (ok, none) => (ok, fs)
  | _ => (false, fs)

/-- Source function `clean_image` (metadata_core.h:104, main.cpp:102). Every exception is caught inside
and turned into `false`. -/
def clean_image (env : Env) (inp out : Str) (opt : Options) (w : World) : Bool × World :=
  let target := if opt.in_place then inp else out
  let prepared : Except Exn FS :=
    if !opt.in_place then copy_file w.fs inp out true
    else backup_if opt w.fs inp
  match prepared with
  | Except.error _ => (false, w)
  | Except.ok fs1 =>
    let r := strip_image env fs1 target
    (r.1, { w with fs := r.2 })

/-- The qpdf command line of `clean_pdf`. -/
def qpdf_cmd (qpdf src dst : Str) : Str :=
  shell_escape qpdf ++ " --clear-metadata --empty-xmp --linearize ".toList
    ++ shell_escape src ++ " ".toList ++ shell_escape dst

/-- Library call `std::system(cmd)` for a qpdf command whose destination is `dst`. -/
def run_qpdf (env : Env) (fs : FS) (cmd dst : Str) : Int × FS :=
  match env.system_qpdf cmd fs with
  | (rc, some c) => (rc, fs_set fs (key dst) (Node.file c))
  | (rc, none) => (rc, fs)

/-- The command line of the in-place branch of `clean_pdf`, which writes to the
temporary file. -/
def in_place_cmd (qpdf inp : Str) : Str := qpdf_cmd qpdf inp (tmp_path inp)

/-- Source function `clean_pdf` (metadata_core.h:137, main.cpp:143). The exceptions of `copy_file` and
`rename` are not caught here. -/
def clean_pdf (env : Env) (inp out : Str) (opt : Options) (w : World) :
    Except Exn Bool × World :=
  let found := find_qpdf env w
  let qpdf := found.1
  let w0 := found.2
  if qpdf = [] then (Except.ok false, w0)
  else if opt.in_place then
    match backup_if opt w0.fs inp with
    | Except.error e => (Except.error e, w0)
    | Except.ok fs1 =>
      let tmp := tmp_path inp
      let r := run_qpdf env fs1 (in_place_cmd qpdf inp) tmp
      if r.1 = 0 then
        match rename r.2 tmp inp with
        | Except.error e => (Except.error e, { w0 with fs := r.2 })
        | Except.ok fs3 => (Except.ok true, { w0 with fs := fs3 })
      else (Except.ok false, { w0 with fs := r.2 })
  else
    let r := run_qpdf env w0.fs (qpdf_cmd qpdf inp out) out
    (Except.ok (decide (r.1 = 0)), { w0 with fs := r.2 })

/-! ## The command-line driver (`main.cpp`) -/

/-- Source line `fs::path out = opt.in_place ? p : default_output(p, opt);`
(main.cpp:227, gui_main.cpp:347). -/
def resolve_out (env : Env) (opt : Options) (p : Str) (fs : FS) : Except Exn Str × FS :=
  if opt.in_place then (Except.ok p, fs) else default_output env p opt fs

/-- The counters of `main`, the paths named by its two warnings on `std::cerr`
("[WARN] unsupported: p" and "[WARN] skipping dir p"), and the world. -/
structure CliState where
  total : Nat
  ok : Nat
  warned_unsupported : List Str
  warned_skipping_dir : List Str
  w : World

/-- The `handle` lambda of `main` after its directory branch (main.cpp:224-234): skip
what is not a regular file, count the file, resolve the output, dispatch on the
kind. Nothing is caught here. The status of `p` has just been read without an error
(main.cpp:217, or main.cpp:220 for an entry of a directory), so `fs::is_regular_file(p)`
does not throw here. -/
def handle_file (env : Env) (opt : Options) (p : Str) (st : CliState) :
    Except Exn Unit × CliState :=
  if !is_regular_file st.w.fs p then (Except.ok (), st)
  else
    let st1 : CliState := { st with total := st.total + 1 }
    match resolve_out env opt p st.w.fs with
    | (Except.error e, fs1) => (Except.error e, { st1 with w := { st.w with fs := fs1 } })
    | (Except.ok out, fs1) =>
      let w1 : World := { st.w with fs := fs1 }
      if is_image p then
        let r := clean_image env p out opt w1
        (Except.ok (), { st1 with ok := if r.1 then st.ok + 1 else st.ok, w := r.2 })
      else if is_pdf p then
        match clean_pdf env p out opt w1 with
        | (Except.error e, w2) => (Except.error e, { st1 with w := w2 })
        | (Except.ok b, w2) =>
          (Except.ok (), { st1 with ok := if b then st.ok + 1 else st.ok, w := w2 })
      else
        (Except.ok (),
          { st1 with warned_unsupported := st.warned_unsupported ++ [p], w := w1 })

/-- The body of the loop over `fs::recursive_directory_iterator(p)` (main.cpp:219-221),
run on the entries the iterator hands over. `fs::is_regular_file(e)` throws when the
status of the entry cannot be read. An entry that passes it is not a directory, so
`handle(e.path())` continues with the part of `handle` after its directory branch. -/
def handle_entries (env : Env) (opt : Options) : List Str → CliState → Except Exn Unit × CliState
  | [], st => (Except.ok (), st)
  | e :: es, st =>
    if status_throws env st.w.fs e then (Except.error Exn.status_failed, st)
    else if is_regular_file st.w.fs e then
      match handle_file env opt e st with
      | (Except.error x, st1) => (Except.error x, st1)
      | (Except.ok _, st1) => handle_entries env opt es st1
    else handle_entries env opt es st

/-- The `handle` lambda of `main` (main.cpp:216-235). `fs::is_directory(p)` throws when the
status of `p` cannot be read; the loop over the directory iterator runs its body on the
entries handed over and ends with the error of the iterator, if there is one. Nothing
is caught. -/
def handle (env : Env) (opt : Options) (p : Str) (st : CliState) : Except Exn Unit × CliState :=
  if status_throws env st.w.fs p then (Except.error Exn.status_failed, st)
  else if is_directory st.w.fs p then
    if !opt.recursive then
      (Except.ok (), { st with warned_skipping_dir := st.warned_skipping_dir ++ [p] })
    else
      match handle_entries env opt (env.readdir st.w.fs p).1 st with
      | (Except.error x, st1) => (Except.error x, st1)
      | (Except.ok _, st1) =>
        if (env.readdir st.w.fs p).2 then (Except.error Exn.directory_iterator_failed, st1)
        else (Except.ok (), st1)
  else handle_file env opt p st

/-- The loop `for (auto& f : inputs) handle(f);` (main.cpp:237). -/
def handle_all (env : Env) (opt : Options) : List Str → CliState → Except Exn Unit × CliState
  | [], st => (Except.ok (), st)
  | f :: fs, st =>
    match handle env opt f st with
    | (Except.error x, st1) => (Except.error x, st1)
    | (Except.ok _, st1) => handle_all env opt fs st1

/-- The files cleaned and the files reported as unsupported are, together, at most the
files counted. -/
def counted (st : CliState) : Prop := st.ok + st.warned_unsupported.length ≤ st.total

/-- How the argument loop of `main` ends. -/
inductive Parsed where
  | help
  | null_argument
  | run (opt : Options) (inputs : List Str)
  deriving DecidableEq, Repr

/-- The argument loop of `main` (main.cpp:204-212) over `argv[1..argc)`. After `-o` or
`--out` the next element is read without a bound check: when there is none it is
`argv[argc]`, a null pointer, from which a path is built. -/
def parse_args : List Str → Options → List Str → Parsed
  | [], opt, inputs => Parsed.run opt inputs
  | a :: rest, opt, inputs =>
    if a = "-h".toList ∨ a = "--help".toList then Parsed.help
    else if a = "-o".toList ∨ a = "--out".toList then
      match rest with
      | [] => Parsed.null_argument
      | d :: rest1 => parse_args rest1 { opt with out_dir := d } inputs
    else if a = "--in-place".toList then parse_args rest { opt with in_place := true } inputs
    else if a = "--no-backup".toList then parse_args rest { opt with backup := false } inputs
    else if a = "-r".toList ∨ a = "--recursive".toList then
      parse_args rest { opt with recursive := true } inputs
    else parse_args rest opt (inputs ++ [a])

/-- How a run of the command-line program ends. -/
inductive CliResult where
  /-- Normal return: `main` returns `code`; `summary` is the pair printed by the final
  "Done. Cleaned ok / total files." line, when that line is reached. -/
  | exit (code : Nat) (summary : Option (Nat × Nat))
  /-- An exception left `main`: `std::terminate`, no summary, no return value. -/
  | terminate (e : Exn)
  /-- A path was built from a null pointer: undefined behaviour. -/
  | undefined_behaviour
  deriving DecidableEq, Repr

/-- Source function `main` (main.cpp:200-241) on the arguments after the program name. -/
def cli_main (env : Env) (args : List Str) (w : World) : CliResult × World :=
  match parse_args args {} [] with
  | Parsed.help => (CliResult.exit 0 none, w)
  | Parsed.null_argument => (CliResult.undefined_behaviour, w)
  | Parsed.run opt inputs =>
    if inputs = [] then (CliResult.exit 1 none, w)
    else
      match handle_all env opt inputs
          { total := 0, ok := 0, warned_unsupported := [], warned_skipping_dir := [], w := w } with
      | (Except.error e, st) => (CliResult.terminate e, st.w)
      | (Except.ok _, st) =>
        (CliResult.exit (if st.ok = st.total then 0 else 2) (some (st.ok, st.total)), st.w)

/-! ## The worker of the graphical front end (`gui_main.cpp`) -/

/-- The state of `CleanMetaGUI` that `process_files`, the worker and `update_ui` read
and write, with the world. The `int` counters are unbounded here: the worker sleeps 100 ms
per file, so they stay far below 2^31. -/
structure Gui where
  selected_files : List Str
  log_messages : List Str
  log_buffer : Str
  processing : Bool
  progress : Nat
  total_files : Nat
  log_queue : List Str
  in_place_check : Bool
  backup_check : Bool
  recursive_check : Bool
  output_dir_input : Str
  w : World

/-- The options the worker builds from the widgets (gui_main.cpp:330-337). -/
def gui_options (g : Gui) : Options :=
  { in_place := g.in_place_check
    backup := g.backup_check
    recursive := g.recursive_check
    out_dir := if !g.in_place_check then g.output_dir_input else [] }

/-- The local variables of the worker loop. -/
structure WorkerState where
  processed : Nat
  successful : Nat
  log_queue : List Str
  progress : Nat
  w : World

/-- What the `try` block of one loop iteration leaves behind: the message, whether the
file counts as successful, and the world. -/
def worker_try (env : Env) (opt : Options) (path : Str) (w : World) : Str × Bool × World :=
  match resolve_out env opt path w.fs with
  | (Except.error e, fs1) =>
    ("[ERROR] ".toList ++ filename path ++ " - ".toList ++ env.what e, false,
      { w with fs := fs1 })
  | (Except.ok out, fs1) =>
    let w1 : World := { w with fs := fs1 }
    if is_image path then
      let r := clean_image env path out opt w1
      if r.1 then
        ("[OK] ".toList ++ filename path ++ " (image) - metadata removed".toList, true, r.2)
      else ("[ERROR] Failed to process image: ".toList ++ filename path, false, r.2)
    else if is_pdf path then
      match clean_pdf env path out opt w1 with
      | (Except.error e, w2) =>
        ("[ERROR] ".toList ++ filename path ++ " - ".toList ++ env.what e, false, w2)
      | (Except.ok true, w2) =>
        ("[OK] ".toList ++ filename path ++ " (PDF) - metadata removed".toList, true, w2)
      | (Except.ok false, w2) =>
        ("[ERROR] Failed to process PDF: ".toList ++ filename path, false, w2)
    else ("[WARNING] Unsupported file type: ".toList ++ filename path, false, w1)

/-- One iteration of the worker loop (gui_main.cpp:342-385). -/
def worker_step (env : Env) (opt : Options) (st : WorkerState) (file_path : Str) :
    WorkerState :=
  let r := worker_try env opt file_path st.w
  { processed := st.processed + 1
    successful := if r.2.1 then st.successful + 1 else st.successful
    log_queue := st.log_queue ++ [r.1]
    progress := st.processed + 1
    w := r.2.2 }

/-- The two lines pushed after the loop (gui_main.cpp:390-392). -/
def summary_lines (successful processed : Nat) : List Str :=
  ["\n=== PROCESSING COMPLETE ===".toList,
   "Successfully processed ".toList ++ (Nat.repr successful).toList
     ++ " out of ".toList ++ (Nat.repr processed).toList ++ " files.".toList]

/-- Source function `CleanMetaGUI::process_files_worker` (gui_main.cpp:329-396). -/
def process_files_worker (env : Env) (g : Gui) : Gui :=
  let opt := gui_options g
  let st0 : WorkerState :=
    { processed := 0, successful := 0, log_queue := g.log_queue, progress := g.progress, w := g.w }
  let st := g.selected_files.foldl (worker_step env opt) st0
  { g with
    log_queue := st.log_queue ++ summary_lines st.successful st.processed
    progress := st.progress
    processing := false
    w := st.w }

/-- The outcomes of the worker loop over a list of files, in order: for each file the
message of its iteration and whether it counted as successful. -/
def worker_outcomes (env : Env) (opt : Options) : List Str → World → List (Str × Bool)
  | [], _ => []
  | f :: fs, w =>
    let r := worker_try env opt f w
    (r.1, r.2.1) :: worker_outcomes env opt fs r.2.2

/-- Source function `CleanMetaGUI::process_files` (gui_main.cpp:308-327): the new state
and whether a worker thread was started. The widget calls (progress bar, status label,
button state) are left out. -/
def process_files (g : Gui) : Gui × Bool :=
  if g.processing ∨ g.selected_files = [] then (g, false)
  else
    ({ g with
        processing := true
        progress := 0
        total_files := g.selected_files.length
        log_buffer := []
        log_messages := [] },
      true)

/-- The entries of a directory traversal for which the loop of `handle` calls `handle`,
that is those that are regular files when their turn comes, up to the first exception. -/
def visited_files (env : Env) (opt : Options) : List Str → CliState → List Str
  | [], _ => []
  | e :: es, st =>
    if status_throws env st.w.fs e then []
    else if is_regular_file st.w.fs e then
      match handle_file env opt e st with
      | (Except.error _, _) => [e]
      | (Except.ok _, st1) => e :: visited_files env opt es st1
    else visited_files env opt es st

/-- The paths one call of `handle` passes on to the per-file step as regular files, that
is the files it counts in `total`: the argument itself, or the visited entries of a
directory argument. -/
def handled_files (env : Env) (opt : Options) (p : Str) (st : CliState) : List Str :=
  if status_throws env st.w.fs p then []
  else if is_directory st.w.fs p then
    if !opt.recursive then [] else visited_files env opt (env.readdir st.w.fs p).1 st
  else if is_regular_file st.w.fs p then [p]
  else []

/-- The NUL character. -/
def nul : Char := Char.ofNat 0

/-- Library call `std::string::c_str()` as `std::system` reads it: the characters before
the first NUL. -/
def c_str (s : Str) : Str := s.takeWhile (fun c => c != nul)

/-- A character the shell never interprets outside quotes: a letter, a digit, or one of
`-`, `_`, `.`, `/`. -/
def sh_plain (c : Char) : Bool :=
  c.isAlphanum || c == '-' || c == '_' || c == '.' || c == '/'

/-- A blank, which ends a word outside quotes. -/
def sh_blank (c : Char) : Bool := c == ' ' || c == Char.ofNat 9

/-- The words of a command line by the quoting rules of the POSIX shell, as the claim
words them: text between single quotes is literal; outside quotes a backslash makes the
next character literal, a blank ends the word, a plain character is taken as it is, and
any other character would be interpreted by the shell, which is reported as `none`, as
is a quote or a backslash left open at the end. `inq` tells whether the reader is inside
single quotes, `cur` is the word being read (`none` between words), `acc` the words
read so far. -/
def sh_words_go : Str → Bool → Option Str → List Str → Option (List Str)
  | [], inq, cur, acc =>
    if inq then none
    else
      match cur with
      | none => some acc
      | some w => some (acc ++ [w])
  | c :: rest, true, cur, acc =>
    if c = squote then sh_words_go rest false cur acc
    else sh_words_go rest true (some (cur.getD [] ++ [c])) acc
  | c :: rest, false, cur, acc =>
    if c = squote then sh_words_go rest true (some (cur.getD [])) acc
    else if c = backslash then
      match rest with
      | [] => none
      | d :: rest1 => sh_words_go rest1 false (some (cur.getD [] ++ [d])) acc
    else if sh_blank c then
      match cur with
      | none => sh_words_go rest false none acc
      | some w => sh_words_go rest false none (acc ++ [w])
    else if sh_plain c then sh_words_go rest false (some (cur.getD [] ++ [c])) acc
    else none

/-- The words the shell reads from a command line, `none` when some character of it is
interpreted by the shell or a quote is left open. -/
def sh_words (cmd : Str) : Option (List Str) := sh_words_go cmd false none []

/-- What `shell_escape` writes for one character. -/
def escape_char (c : Char) : Str :=
  if c = squote then [squote, backslash, squote, squote] else [c]

/-- What `shell_escape` writes between its two outer quotes. -/
def escape_body : Str → Str
  | [] => []
  | c :: cs => escape_char c ++ escape_body cs

/-- The options between the escaped program and the escaped source of the qpdf command
line, as the words the shell reads. -/
def qpdf_options : List Str :=
  ["--clear-metadata".toList, "--empty-xmp".toList, "--linearize".toList]

/-! ## A concrete world for the worked examples -/

/-- Collaborators of the worked examples: Exiv2 succeeds and writes back the first byte
of the file, qpdf exits with status 0 and writes one byte, `qpdf` is on the search path,
no directory creation and no status query is refused and no directory has entries. -/
def demo_env : Env where
  exiv2 := fun c => (true, some (c.take 1))
  system_qpdf := fun _ _ => (0, some [7])
  exe_dir := "/app".toList
  command_v_qpdf := true
  mkdir_denied := fun _ _ => false
  status_denied := fun _ _ => false
  readdir := fun _ _ => ([], false)
  what := fun _ => "filesystem error".toList

/-- A working directory holding the regular files `photo.jpg`, `doc.pdf`, `readme.txt`,
`a.jpg`, `a.clean.jpg` and `blocked`. -/
def demo_fs : FS := fun k =>
  if k = [] then some Node.dir
  else if k = [['/']] then some Node.dir
  else if k = ["photo.jpg".toList] then some (Node.file [1, 2, 3])
  else if k = ["doc.pdf".toList] then some (Node.file [4, 5, 6])
  else if k = ["readme.txt".toList] then some (Node.file [7, 8])
  else if k = ["a.jpg".toList] then some (Node.file [10, 11])
  else if k = ["a.clean.jpg".toList] then some (Node.file [20, 21])
  else if k = ["blocked".toList] then some (Node.file [0])
  else none

/-- The collaborators of the worked examples with a qpdf that exits with status 0
without writing its output. -/
def demo_env_idle_qpdf : Env := { demo_env with system_qpdf := fun _ _ => (0, none) }

/-- The world of the worked examples, with nothing cached for qpdf. -/
def demo_world : World := { fs := demo_fs, qpdf_path_cached := [] }

/-- The front end of the worked examples: idle, copy mode, backup ticked, no output
directory, the given files selected. -/
def demo_gui (files : List Str) : Gui :=
  { selected_files := files, log_messages := [], log_buffer := [], processing := true,
    progress := 0,
    total_files := files.length, log_queue := [], in_place_check := false,
    backup_check := true, recursive_check := false, output_dir_input := [], w := demo_world }

/-- The counters of `main` before the first file. -/
def demo_state : CliState :=
  { total := 0, ok := 0, warned_unsupported := [], warned_skipping_dir := [], w := demo_world }

end CleanMeta

namespace CleanMeta

/-! ## Facts about the path operations -/

theorem split_last_concat (p d n : Str) :
    (split_last p (d, n)).1 ++ (split_last p (d, n)).2 = d ++ n ++ p := by
  induction p generalizing d n with
  | nil => simp [split_last]
  | cons c cs ih =>
    unfold split_last
    split
    · rw [ih]; simp
    · rw [ih]; simp

theorem split_last_snd_no_sep (p d n : Str) (hn : no_sep n) :
    no_sep (split_last p (d, n)).2 := by
  induction p generalizing d n with
  | nil => simpa [split_last] using hn
  | cons c cs ih =>
    unfold split_last
    split
    · apply ih
      intro x hx
      simp at hx
    · rename_i hc
      apply ih
      intro x hx
      simp only [List.mem_append, List.mem_singleton] at hx
      rcases hx with hx | hx
      · exact hn x hx
      · subst hx
        simpa using hc

theorem split_last_append_no_sep (p s d n : Str) (hs : no_sep s) :
    split_last (p ++ s) (d, n) = ((split_last p (d, n)).1, (split_last p (d, n)).2 ++ s) := by
  induction p generalizing d n with
  | nil =>
    simp only [List.nil_append, split_last]
    induction s generalizing n with
    | nil => simp [split_last]
    | cons c cs ih =>
      have hc : is_sep c = false := hs c (List.mem_cons_self _ _)
      have hcs : no_sep cs := fun x hx => hs x (List.mem_cons_of_mem _ hx)
      simp only [split_last, hc]
      rw [ih hcs]
      simp
  | cons c cs ih =>
    simp only [List.cons_append, split_last]
    split
    · exact ih _ _
    · exact ih _ _

theorem split_last_snoc_sep (x : Str) (c : Char) (hc : is_sep c = true) (d n : Str) :
    split_last (x ++ [c]) (d, n) = (d ++ n ++ x ++ [c], []) := by
  induction x generalizing d n with
  | nil => simp [split_last, hc]
  | cons y ys ih =>
    rw [List.cons_append]
    unfold split_last
    split
    · rw [ih]; simp
    · rw [ih]; simp

theorem dir_like_nil : dir_like [] := rfl

theorem dir_like_snoc_sep (x : Str) (c : Char) (hc : is_sep c = true) : dir_like (x ++ [c]) := by
  unfold dir_like
  rw [split_last_snoc_sep x c hc]
  simp

theorem split_last_fst_dir_like (p d n : Str) (hd : dir_like d) :
    dir_like (split_last p (d, n)).1 := by
  induction p generalizing d n with
  | nil => simpa [split_last] using hd
  | cons c cs ih =>
    unfold split_last
    split
    · rename_i hc
      exact ih _ _ (dir_like_snoc_sep (d ++ n) c hc)
    · exact ih _ _ hd

theorem remove_filename_dir_like (p : Str) : dir_like (remove_filename p) :=
  split_last_fst_dir_like p [] [] dir_like_nil

theorem remove_filename_append_filename (p : Str) : remove_filename p ++ filename p = p := by
  have := split_last_concat p [] []
  simpa [remove_filename, filename] using this

theorem filename_no_sep (p : Str) : no_sep (filename p) :=
  split_last_snd_no_sep p [] [] (fun _ h => by simp at h)

theorem filename_dir_append (d r : Str) (hd : dir_like d) (hr : no_sep r) :
    filename (d ++ r) = r := by
  unfold filename
  rw [split_last_append_no_sep d r [] [] hr, hd]
  simp

theorem remove_filename_dir_append (d r : Str) (hd : dir_like d) (hr : no_sep r) :
    remove_filename (d ++ r) = d := by
  unfold remove_filename
  rw [split_last_append_no_sep d r [] [] hr, hd]

theorem stem_append_extension (p : Str) : stem p ++ extension p = filename p := by
  unfold stem extension
  cases find_extension (filename p) with
  | none => simp
  | some pos => exact List.take_append_drop pos (filename p)

theorem stem_no_sep (p : Str) : no_sep (stem p) := by
  intro c hc
  apply filename_no_sep p
  rw [← stem_append_extension]
  exact List.mem_append_left _ hc

theorem extension_no_sep (p : Str) : no_sep (extension p) := by
  intro c hc
  apply filename_no_sep p
  rw [← stem_append_extension]
  exact List.mem_append_right _ hc

theorem is_absolute_of_no_sep (r : Str) (hr : no_sep r) : is_absolute r = false := by
  cases r with
  | nil => rfl
  | cons c cs => exact hr c (List.mem_cons_self _ _)

theorem has_filename_dir_like (d : Str) (hd : dir_like d) : has_filename d = false := by
  unfold has_filename filename
  rw [hd]
  rfl

theorem path_append_dir (d r : Str) (hd : dir_like d) (hr : no_sep r) :
    path_append d r = d ++ r := by
  unfold path_append
  rw [is_absolute_of_no_sep r hr, has_filename_dir_like d hd]
  by_cases h : d = []
  · simp [h]
  · simp [h]

theorem replace_filename_eq (p r : Str) (hr : no_sep r) :
    replace_filename p r = remove_filename p ++ r :=
  path_append_dir _ _ (remove_filename_dir_like p) hr

end CleanMeta

namespace CleanMeta

/-! ## Locations of a path with a suffix added to its last name -/

end CleanMeta

namespace CleanMeta

/-! ## Facts about the file-system operations -/

theorem fs_set_same (fs : FS) (k : Key) (n : Node) : fs_set fs k n k = some n := by
  simp [fs_set]

theorem fs_set_other (fs : FS) (k q : Key) (n : Node) (h : q ≠ k) : fs_set fs k n q = fs q := by
  simp [fs_set, h]

theorem fs_wf_set_dir (fs : FS) (par : Key) (c : Str) (hwf : fs_wf fs)
    (hpar : fs par = some Node.dir) : fs_wf (fs_set fs (par ++ [c]) Node.dir) := by
  obtain ⟨h0, h1, h2⟩ := hwf
  have keep : ∀ q, fs q = some Node.dir → fs_set fs (par ++ [c]) Node.dir q = some Node.dir := by
    intro q hq
    unfold fs_set
    split
    · rfl
    · exact hq
  refine ⟨keep _ h0, keep _ h1, ?_⟩
  intro k d hk
  by_cases hkd : k ++ [d] = par ++ [c]
  · have : k = par := (List.append_inj' hkd rfl).1
    rw [this]
    exact keep _ hpar
  · rw [fs_set_other _ _ _ _ hkd] at hk
    exact keep _ (h2 k d hk)

/-- What one `create_directory` can do. -/
theorem create_directory_cases (env : Env) (fs : FS) (k : Key) :
    (create_directory env fs k = (Except.ok false, fs) ∧ fs k = some Node.dir)
    ∨ (create_directory env fs k = (Except.ok true, fs_set fs k Node.dir) ∧ fs k = none
        ∧ env.mkdir_denied fs k = false)
    ∨ (create_directory env fs k = (Except.error Exn.create_directories_failed, fs)
        ∧ ((∃ c, fs k = some (Node.file c)) ∨ (fs k = none ∧ env.mkdir_denied fs k = true))) := by
  unfold create_directory
  cases hk : fs k with
  | none =>
    cases hd : env.mkdir_denied fs k with
    | true => simp
    | false => simp
  | some n =>
    cases n with
    | dir => simp
    | file c => simp

/-- The effect of the creation loop: nothing that exists is changed, what is new is a
directory on the list whose creation was not refused, the only error is the
directory-creation error, and after success every listed location is a directory. -/
theorem mkdir_all_spec (env : Env) (ks : List Key) :
    ∀ (fs : FS) (r : Except Exn Bool) (fs1 : FS), mkdir_all env fs ks = (r, fs1) →
      (∀ k n, fs k = some n → fs1 k = some n)
      ∧ (∀ k, fs1 k ≠ fs k →
          k ∈ ks ∧ fs k = none ∧ fs1 k = some Node.dir ∧ ∃ f, env.mkdir_denied f k = false)
      ∧ (∀ e, r = Except.error e → e = Exn.create_directories_failed)
      ∧ (∀ b, r = Except.ok b → ∀ k ∈ ks, fs1 k = some Node.dir) := by
  induction ks with
  | nil =>
    intro fs r fs1 h
    simp only [mkdir_all, Prod.mk.injEq] at h
    obtain ⟨hr, hf⟩ := h
    subst hr; subst hf
    refine ⟨fun _ _ h => h, fun q hq => absurd rfl hq, ?_, ?_⟩
    · intro e he; cases he
    · intro b _ q hq
      cases hq
  | cons k ks ih =>
    intro fs r fs1 h
    unfold mkdir_all at h
    rcases create_directory_cases env fs k with ⟨hc, hk⟩ | ⟨hc, hk, hden⟩ | ⟨hc, _⟩
    · rw [hc] at h
      cases ks with
      | nil =>
        simp only [Prod.mk.injEq] at h
        obtain ⟨hr, hf⟩ := h
        subst hr; subst hf
        refine ⟨fun _ _ h => h, fun q hq => absurd rfl hq, ?_, ?_⟩
        · intro e he; cases he
        · intro b _ q hq
          simp only [List.mem_singleton] at hq
          rw [hq]; exact hk
      | cons k2 ks2 =>
        simp only at h
        obtain ⟨i1, i2, i3, i4⟩ := ih fs r fs1 h
        refine ⟨i1, ?_, i3, ?_⟩
        · intro q hq
          obtain ⟨a, b, c, d⟩ := i2 q hq
          exact ⟨List.mem_cons_of_mem _ a, b, c, d⟩
        · intro b hb q hq
          rcases List.mem_cons.mp hq with hq | hq
          · rw [hq]; exact i1 _ _ hk
          · exact i4 b hb q hq
    · rw [hc] at h
      have hsame : fs_set fs k Node.dir k = some Node.dir := fs_set_same fs k Node.dir
      cases ks with
      | nil =>
        simp only [Prod.mk.injEq] at h
        obtain ⟨hr, hf⟩ := h
        subst hr; subst hf
        refine ⟨?_, ?_, ?_, ?_⟩
        · intro q n hq
          by_cases hqk : q = k
          · rw [hqk, hk] at hq; cases hq
          · rw [fs_set_other _ _ _ _ hqk]; exact hq
        · intro q hq
          by_cases hqk : q = k
          · subst hqk
            exact ⟨List.mem_cons_self _ _, hk, hsame, fs, hden⟩
          · exact absurd (fs_set_other _ _ _ _ hqk) hq
        · intro e he; cases he
        · intro b _ q hq
          simp only [List.mem_singleton] at hq
          rw [hq]; exact hsame
      | cons k2 ks2 =>
        simp only at h
        obtain ⟨i1, i2, i3, i4⟩ := ih (fs_set fs k Node.dir) r fs1 h
        refine ⟨?_, ?_, i3, ?_⟩
        · intro q n hq
          apply i1
          by_cases hqk : q = k
          · rw [hqk, hk] at hq; cases hq
          · rw [fs_set_other _ _ _ _ hqk]; exact hq
        · intro q hq
          by_cases hqk : q = k
          · subst hqk
            exact ⟨List.mem_cons_self _ _, hk, i1 _ _ hsame, fs, hden⟩
          · have hq2 : fs1 q ≠ fs_set fs k Node.dir q := by
              rw [fs_set_other _ _ _ _ hqk]; exact hq
            obtain ⟨a, b, c, d⟩ := i2 q hq2
            rw [fs_set_other _ _ _ _ hqk] at b
            exact ⟨List.mem_cons_of_mem _ a, b, c, d⟩
        · intro b hb q hq
          rcases List.mem_cons.mp hq with hq | hq
          · rw [hq]; exact i1 _ _ hsame
          · exact i4 b hb q hq
    · rw [hc] at h
      simp only [Prod.mk.injEq] at h
      obtain ⟨hr, hf⟩ := h
      subst hr; subst hf
      refine ⟨fun _ _ h => h, fun q hq => absurd rfl hq, ?_, ?_⟩
      · intro e he
        cases he
        rfl
      · intro b hb
        cases hb

end CleanMeta

namespace CleanMeta

theorem mkdir_all_wf (env : Env) (ms : List Key) :
    ∀ (par : Key) (fs : FS) (r : Except Exn Bool) (fs1 : FS), fs_wf fs →
      fs par = some Node.dir → chain par ms → mkdir_all env fs ms = (r, fs1) → fs_wf fs1 := by
  induction ms with
  | nil =>
    intro par fs r fs1 hwf _ _ h
    simp only [mkdir_all, Prod.mk.injEq] at h
    rw [← h.2]; exact hwf
  | cons k ks ih =>
    intro par fs r fs1 hwf hpar hch h
    obtain ⟨⟨c, hkc⟩, hch2⟩ := hch
    unfold mkdir_all at h
    rcases create_directory_cases env fs k with ⟨hc, hk⟩ | ⟨hc, hk, _⟩ | ⟨hc, _⟩
    · rw [hc] at h
      cases ks with
      | nil =>
        simp only [Prod.mk.injEq] at h
        rw [← h.2]; exact hwf
      | cons k2 ks2 =>
        simp only at h
        exact ih k fs r fs1 hwf hk hch2 h
    · rw [hc] at h
      have hwf1 : fs_wf (fs_set fs k Node.dir) := by
        rw [hkc]; exact fs_wf_set_dir fs par c hwf hpar
      cases ks with
      | nil =>
        simp only [Prod.mk.injEq] at h
        rw [← h.2]; exact hwf1
      | cons k2 ks2 =>
        simp only at h
        exact ih k _ r fs1 hwf1 (fs_set_same fs k Node.dir) hch2 h
    · rw [hc] at h
      simp only [Prod.mk.injEq] at h
      rw [← h.2]; exact hwf

theorem chain_snoc (ms : List Key) :
    ∀ (par k : Key) (c : Str), chain par ms → ms.getLast? = some k →
      chain par (ms ++ [k ++ [c]]) := by
  induction ms with
  | nil => intro par k c _ h; simp at h
  | cons a rest ih =>
    intro par k c hch hl
    obtain ⟨ha, hrest⟩ := hch
    cases rest with
    | nil =>
      simp only [List.getLast?_singleton, Option.some.injEq] at hl
      subst hl
      exact ⟨ha, ⟨c, rfl⟩, trivial⟩
    | cons b rest2 =>
      have hl2 : (b :: rest2).getLast? = some k := by
        rw [List.getLast?_cons_cons] at hl; exact hl
      exact ⟨ha, ih a k c hrest hl2⟩

/-- What the upward walk returns on a well-formed file system: consecutive locations
below an existing directory, ending at the requested one, all of them initial segments
of it. -/
theorem collect_missing_spec (fs : FS) (hwf : fs_wf fs) (rk : List Str) :
    ∀ ms, rk ≠ [] → collect_missing fs rk = some ms →
      ∃ par, fs par = some Node.dir ∧ chain par ms ∧ ms.getLast? = some rk.reverse
        ∧ ∀ k ∈ ms, k <+: rk.reverse := by
  induction rk with
  | nil => intro ms h; exact absurd rfl h
  | cons c rest ih =>
    intro ms _ h
    unfold collect_missing at h
    by_cases hrest : rest = []
    · subst hrest
      simp only [if_true] at h
      split at h
      · cases h
      · simp only [Option.some.injEq] at h
        subst h
        refine ⟨[], hwf.1, ⟨⟨c, rfl⟩, trivial⟩, rfl, ?_⟩
        intro k hk
        simp only [List.mem_singleton] at hk
        subst hk
        simp
    · simp only [hrest, if_false] at h
      cases hf : fs rest.reverse with
      | none =>
        rw [hf] at h
        simp only [Option.map_eq_some'] at h
        obtain ⟨ms1, hms1, hms⟩ := h
        obtain ⟨par, hpar, hch, hlast, hpre⟩ := ih ms1 hrest hms1
        subst hms
        refine ⟨par, hpar, ?_, ?_, ?_⟩
        · have := chain_snoc ms1 par rest.reverse c hch hlast
          simpa using this
        · simp
        · intro k hk
          simp only [List.mem_append, List.mem_singleton] at hk
          rcases hk with hk | hk
          · have := hpre k hk
            rw [List.reverse_cons]
            exact this.trans (List.prefix_append _ _)
          · subst hk
            simp
      | some n =>
        rw [hf] at h
        cases n with
        | file d => simp at h
        | dir =>
          simp only [Option.some.injEq] at h
          subst h
          refine ⟨rest.reverse, hf, ⟨⟨c, by simp⟩, trivial⟩, rfl, ?_⟩
          intro k hk
          simp only [List.mem_singleton] at hk
          subst hk
          simp

theorem collect_missing_some (fs : FS) (hwf : fs_wf fs) (rk : List Str) :
    rk ≠ [] → fs rk.reverse = none →
      (∀ k, k <+: rk.reverse → ∀ d, fs k ≠ some (Node.file d)) →
      ∃ ms, collect_missing fs rk = some ms := by
  induction rk with
  | nil => intro h; exact absurd rfl h
  | cons c rest ih =>
    intro _ hnone hpre
    unfold collect_missing
    by_cases hrest : rest = []
    · subst hrest
      simp only [if_true]
      split
      · rename_i hc
        subst hc
        have := hwf.2.1
        simp only [List.reverse_cons, List.reverse_nil, List.nil_append] at hnone
        rw [this] at hnone
        cases hnone
      · exact ⟨_, rfl⟩
    · simp only [hrest, if_false]
      have hp : rest.reverse <+: (c :: rest).reverse := by
        rw [List.reverse_cons]; exact List.prefix_append _ _
      cases hf : fs rest.reverse with
      | none =>
        obtain ⟨ms, hms⟩ := ih hrest hf (fun k hk d => hpre k (hk.trans hp) d)
        exact ⟨ms ++ [(c :: rest).reverse], by simp [hms]⟩
      | some n =>
        cases n with
        | file d => exact absurd hf (hpre _ hp d)
        | dir => exact ⟨_, rfl⟩

/-- Every initial segment of an existing location of a well-formed file system is a
directory, the location itself apart. -/
theorem fs_wf_ancestors (fs : FS) (hwf : fs_wf fs) (rk : List Str) :
    (fs rk.reverse).isSome = true → ∀ k, k <+: rk.reverse → k ≠ rk.reverse →
      fs k = some Node.dir := by
  induction rk with
  | nil =>
    intro _ k hk hne
    simp only [List.reverse_nil, List.prefix_nil] at hk
    simp only [List.reverse_nil] at hne
    exact absurd hk hne
  | cons c rest ih =>
    intro hsome k hk hne
    rw [List.reverse_cons] at hsome hk hne
    have hparent : fs rest.reverse = some Node.dir := hwf.2.2 _ _ hsome
    rcases List.prefix_concat_iff.mp hk with h1 | h1
    · exact absurd h1 hne
    · by_cases hk2 : k = rest.reverse
      · rw [hk2]; exact hparent
      · exact ih (by rw [hparent]; rfl) k h1 hk2

end CleanMeta

namespace CleanMeta

/-! ## Frames of the file operations and of the two cleaners -/

theorem copy_file_frame (fs fs1 : FS) (src dst : Str) (ov : Bool)
    (h : copy_file fs src dst ov = Except.ok fs1) :
    ∃ c, status fs src = some (Node.file c) ∧ dst ≠ [] ∧ fs1 = fs_set fs (key dst) (Node.file c) := by
  unfold copy_file at h
  cases hs : status fs src with
  | none => rw [hs] at h; cases h
  | some n =>
    cases n with
    | dir => rw [hs] at h; cases h
    | file c =>
      rw [hs] at h
      simp only at h
      cases hd : status fs dst with
      | none =>
        rw [hd] at h
        simp only at h
        split at h
        · cases h
        · rename_i hne
          cases h
          exact ⟨c, rfl, hne, rfl⟩
      | some m =>
        have hne : dst ≠ [] := by
          intro h0
          simp [status, h0] at hd
        rw [hd] at h
        cases m with
        | dir => cases h
        | file d =>
          simp only at h
          split at h
          · cases h
          · split at h
            · cases h
              exact ⟨c, rfl, hne, rfl⟩
            · cases h

theorem run_qpdf_frame (env : Env) (fs : FS) (cmd dst : Str) (k : Key) (hk : k ≠ key dst) :
    (run_qpdf env fs cmd dst).2 k = fs k := by
  unfold run_qpdf
  cases he : env.system_qpdf cmd fs with
  | mk rc wr =>
    cases wr with
    | none => rfl
    | some c => exact fs_set_other _ _ _ _ hk

theorem find_qpdf_fs (env : Env) (w : World) : (find_qpdf env w).2.fs = w.fs := by
  unfold find_qpdf
  split
  · rfl
  · simp only
    split
    · rfl
    · split <;> rfl

end CleanMeta

namespace CleanMeta

theorem clean_image_copy (env : Env) (p out : Str) (opt : Options) (w : World)
    (hin : opt.in_place = false) :
    clean_image env p out opt w
      = match copy_file w.fs p out true with
        | Except.error _ => (false, w)
        | Except.ok fs1 =>
          ((strip_image env fs1 out).1, { w with fs := (strip_image env fs1 out).2 }) := by
  unfold clean_image
  simp only [hin, Bool.not_false, if_true, Bool.false_eq_true, if_false]

end CleanMeta

namespace CleanMeta

/-! ## The world of the worked examples is well formed -/

theorem demo_fs_wf : fs_wf demo_fs := by
  refine ⟨rfl, rfl, ?_⟩
  intro k c h
  cases k with
  | nil => rfl
  | cons a t =>
    exfalso
    have h2 : ∀ x : Str, (a :: t) ++ [c] ≠ [x] := by
      intro x hx
      have := congrArg List.length hx
      simp at this
    simp [demo_fs, h2] at h

end CleanMeta

namespace CleanMeta

/-! ## Plain spellings and the entries of a directory -/

end CleanMeta

namespace CleanMeta

/-! ## The files a run of the command-line driver processes -/

/-- A regular file is not a directory, and its status can be read. -/
theorem regular_not_directory (env : Env) (fs : FS) (p : Str) (h : is_regular_file fs p = true) :
    is_directory fs p = false ∧ status_throws env fs p = false := by
  unfold is_regular_file at h
  unfold is_directory status_throws
  cases hs : status fs p with
  | none => rw [hs] at h; simp at h
  | some n =>
    cases n with
    | dir => rw [hs] at h; simp at h
    | file c => simp

/-- On a regular file `handle` is the per-file step. -/
theorem handle_of_regular (env : Env) (opt : Options) (p : Str) (st : CliState)
    (h : is_regular_file st.w.fs p = true) :
    handle env opt p st = handle_file env opt p st
    ∧ handled_files env opt p st = [p] := by
  obtain ⟨h1, h2⟩ := regular_not_directory env st.w.fs p h
  unfold handle handled_files
  simp [h1, h2, h]

end CleanMeta

namespace CleanMeta

/-! ## Classification depends on the lower-cased extension only -/

theorem tolower_eq_iff (c d : Char) (hd : ¬ (97 ≤ d.toNat ∧ d.toNat ≤ 122))
    (hd2 : ¬ (65 ≤ d.toNat ∧ d.toNat ≤ 90)) : tolower c = d ↔ c = d := by
  unfold tolower
  split
  · rename_i h
    constructor
    · intro hcd
      exfalso
      apply hd
      rw [← hcd]
      obtain ⟨h1, h2⟩ := h
      generalize c.toNat = n at h1 h2
      interval_cases n <;> decide
    · intro hcd
      subst hcd
      exact absurd h hd2
  · exact Iff.rfl

theorem tolower_sep (c : Char) : is_sep (tolower c) = is_sep c := by
  have key := tolower_eq_iff c '/' (by decide) (by decide)
  unfold is_sep
  by_cases h : c = '/'
  · have h2 : tolower c = '/' := key.mpr h
    rw [h2, h]
  · have h2 : tolower c ≠ '/' := fun e => h (key.mp e)
    simp [h, h2]

theorem tolower_dot (c : Char) : (tolower c == '.') = (c == '.') := by
  have key := tolower_eq_iff c '.' (by decide) (by decide)
  by_cases h : c = '.'
  · have h2 : tolower c = '.' := key.mpr h
    rw [h2, h]
  · have h2 : tolower c ≠ '.' := fun e => h (key.mp e)
    simp [h, h2]

theorem split_last_lower (p d n : Str) :
    split_last (lower p) (lower d, lower n)
      = (lower (split_last p (d, n)).1, lower (split_last p (d, n)).2) := by
  induction p generalizing d n with
  | nil => rfl
  | cons c cs ih =>
    simp only [lower, List.map_cons, split_last, tolower_sep]
    split
    · have := ih (d ++ n ++ [c]) []
      simpa [lower] using this
    · have := ih d (n ++ [c])
      simpa [lower] using this

theorem filename_lower (p : Str) : filename (lower p) = lower (filename p) := by
  have h := split_last_lower p [] []
  have h2 := congrArg Prod.snd h
  exact h2

theorem rfind_dot_lower (s : Str) : rfind_dot (lower s) = rfind_dot s := by
  induction s with
  | nil => rfl
  | cons c cs ih =>
    simp only [lower, List.map_cons, rfind_dot] at ih ⊢
    rw [ih, tolower_dot]

theorem find_extension_lower (s : Str) : find_extension (lower s) = find_extension s := by
  cases s with
  | nil => rfl
  | cons c cs =>
    have hr := rfind_dot_lower (c :: cs)
    have hd : (tolower c = '.') ↔ (c = '.') := tolower_eq_iff c '.' (by decide) (by decide)
    simp only [lower, List.map_cons] at hr
    simp only [lower, List.map_cons, find_extension, hr, List.length_cons, List.length_map, hd]

theorem extension_lower (p : Str) : extension (lower p) = lower (extension p) := by
  unfold extension
  rw [filename_lower, find_extension_lower]
  cases find_extension (filename p) with
  | none => rfl
  | some pos => simp [lower, List.map_drop]

theorem classify_of_lower_eq (p q : Str) (h : lower (extension q) = lower (extension p)) :
    classify q = classify p := by
  simp only [classify, is_image, is_pdf, h]

/-- C1. The classifier is a total function of the lower-cased extension: `is_image`
holds exactly for `.jpg`, `.jpeg`, `.png`, `.heic`, `is_pdf` exactly for `.pdf`, anything
else is unsupported; the kinds exclude each other; two paths whose extensions agree after
lower-casing, and two paths that differ only in letter case, have the same kind. -/
theorem classifier_is_function_of_lowercased_extension (p : Str) :
    (is_image p = true ↔
      lower (extension p) ∈
        [".jpg".toList, ".jpeg".toList, ".png".toList, ".heic".toList])
    ∧ (is_pdf p = true ↔ lower (extension p) = ".pdf".toList)
    ∧ (classify p = Kind.image ↔ is_image p = true)
    ∧ (classify p = Kind.document ↔ is_pdf p = true)
    ∧ (classify p = Kind.unsupported ↔ (is_image p = false ∧ is_pdf p = false))
    ∧ ¬ (is_image p = true ∧ is_pdf p = true)
    ∧ (∀ q : Str, lower (extension q) = lower (extension p) → classify q = classify p)
    ∧ (∀ q : Str, lower q = lower p → classify q = classify p)
    ∧ classify "a.JPG".toList = Kind.image
    ∧ classify "a.Jpg".toList = Kind.image
    ∧ classify "a.jpg".toList = Kind.image := by
  have himg : is_image p = true ↔
      lower (extension p) ∈
        [".jpg".toList, ".jpeg".toList, ".png".toList, ".heic".toList] := by
    simp [is_image, or_assoc]
  have hpdf : is_pdf p = true ↔ lower (extension p) = ".pdf".toList := by
    simp [is_pdf]
  have hexcl : ¬ (is_image p = true ∧ is_pdf p = true) := by
    rintro ⟨h1, h2⟩
    rw [himg] at h1
    rw [hpdf] at h2
    rw [h2] at h1
    revert h1
    decide
  refine ⟨himg, hpdf, ?_, ?_, ?_, hexcl, ?_, ?_, by decide, by decide, by decide⟩
  · unfold classify
    cases h1 : is_image p <;> cases h2 : is_pdf p <;> simp
  · unfold classify
    cases h1 : is_image p <;> cases h2 : is_pdf p <;> simp
    exact hexcl ⟨h1, h2⟩
  · unfold classify
    cases h1 : is_image p <;> cases h2 : is_pdf p <;> simp
  · intro q h
    exact classify_of_lower_eq p q h
  · intro q h
    apply classify_of_lower_eq
    rw [← extension_lower, ← extension_lower, h]

end CleanMeta

namespace CleanMeta

/-! ## The sibling output path -/

theorem has_relative_path_append (d r : Str) (hr : no_sep r) (hne : r ≠ []) :
    has_relative_path (d ++ r) = true := by
  cases r with
  | nil => exact absurd rfl hne
  | cons c cs =>
    have hc : is_sep c = false := hr c (List.mem_cons_self _ _)
    simp only [has_relative_path, List.any_eq_true]
    exact ⟨c, by simp, by simp [hc]⟩

theorem parent_path_of_relative (p : Str) (h : has_relative_path p = true) :
    parent_path p = parent_of_dir (remove_filename p) := by
  simp [parent_path, parent_of_dir, h]

theorem all_sep_of_not_relative (p : Str) (h : has_relative_path p = false) :
    ∀ c ∈ p, is_sep c = true := by
  intro c hc
  by_contra hn
  have : has_relative_path p = true := by
    simp only [has_relative_path, List.any_eq_true]
    exact ⟨c, hc, by simpa using hn⟩
  rw [h] at this
  exact absurd this (by simp)

theorem filename_of_not_relative (p : Str) (h : has_relative_path p = false) :
    filename p = [] := by
  have hall := all_sep_of_not_relative p h
  have hns := filename_no_sep p
  cases hf : filename p with
  | nil => rfl
  | cons c cs =>
    have hc : c ∈ filename p := by rw [hf]; exact List.mem_cons_self _ _
    have h1 : is_sep c = false := hns c hc
    have h2 : c ∈ p := by
      rw [← remove_filename_append_filename p]
      exact List.mem_append_right _ hc
    rw [hall c h2] at h1
    exact absurd h1 (by simp)

theorem remove_filename_of_not_relative (p : Str) (h : has_relative_path p = false) :
    remove_filename p = p := by
  have := remove_filename_append_filename p
  rw [filename_of_not_relative p h] at this
  simpa using this

theorem strip_all_sep (p : Str) (h : ∀ c ∈ p, is_sep c = true) : strip_trailing_seps p = [] := by
  unfold strip_trailing_seps
  have : p.reverse.dropWhile is_sep = [] := by
    rw [List.dropWhile_eq_nil_iff]
    intro c hc
    exact h c (List.mem_reverse.mp hc)
  rw [this]
  rfl

theorem split_sep_all_sep (p acc : Str) (h : ∀ c ∈ p, is_sep c = true) :
    ∀ s ∈ split_sep p acc, s = acc ∨ s = [] := by
  induction p generalizing acc with
  | nil => intro s hs; simp [split_sep] at hs; exact Or.inl hs
  | cons c cs ih =>
    intro s hs
    have hc : is_sep c = true := h c (List.mem_cons_self _ _)
    have hcs : ∀ x ∈ cs, is_sep x = true := fun x hx => h x (List.mem_cons_of_mem _ hx)
    simp only [split_sep, hc, if_true, List.mem_cons] at hs
    rcases hs with hs | hs
    · exact Or.inl hs
    · rcases ih [] hcs s hs with h1 | h1
      · exact Or.inr h1
      · exact Or.inr h1

theorem elements_all_sep (p : Str) (hne : p ≠ []) (h : has_relative_path p = false) :
    elements p = [['/']] := by
  have hall := all_sep_of_not_relative p h
  have habs : is_absolute p = true := by
    cases p with
    | nil => exact absurd rfl hne
    | cons c cs => exact hall c (List.mem_cons_self _ _)
  have hfil : (split_sep p []).filter (fun s => !s.isEmpty) = [] := by
    rw [List.filter_eq_nil_iff]
    intro s hs
    rcases split_sep_all_sep p [] hall s hs with h1 | h1 <;> simp [h1]
  simp [elements, habs, hfil, h]

/-- C2. With `out_dir` empty, `default_output` changes nothing on disk and returns a
sibling of the input: the directory part of the input followed by
`stem + ".clean" + extension`, so that the filename is the input's filename with
`.clean` inserted before the final extension and the parent path is the input's parent
(the same string whenever the input names something, the root directory otherwise);
`photo.jpg` gives `photo.clean.jpg`, `archive.tar.gz` gives `archive.tar.clean.gz` and a
name without extension gets `.clean` appended. -/
theorem default_output_is_clean_sibling (env : Env) (p : Str) (opt : Options) (fs : FS)
    (h : opt.out_dir = []) :
    default_output env p opt fs = (Except.ok (clean_sibling p), fs)
    ∧ clean_sibling p = remove_filename p ++ (stem p ++ ".clean".toList ++ extension p)
    ∧ filename (clean_sibling p) = stem p ++ ".clean".toList ++ extension p
    ∧ stem p ++ extension p = filename p
    ∧ remove_filename (clean_sibling p) = remove_filename p
    ∧ path_eq (parent_path (clean_sibling p)) (parent_path p)
    ∧ (has_relative_path p = true → parent_path (clean_sibling p) = parent_path p)
    ∧ clean_sibling "photo.jpg".toList = "photo.clean.jpg".toList
    ∧ clean_sibling "archive.tar.gz".toList = "archive.tar.clean.gz".toList
    ∧ clean_sibling "notes".toList = "notes.clean".toList := by
  have hr : no_sep (stem p ++ ".clean".toList ++ extension p) := by
    intro c hc
    simp only [List.mem_append] at hc
    rcases hc with (hc | hc) | hc
    · exact stem_no_sep p c hc
    · revert c; decide
    · exact extension_no_sep p c hc
  have hne : stem p ++ ".clean".toList ++ extension p ≠ [] := by
    intro h0
    have := congrArg List.length h0
    simp at this
  have hd := remove_filename_dir_like p
  have hsib : clean_sibling p = remove_filename p ++ (stem p ++ ".clean".toList ++ extension p) :=
    replace_filename_eq p _ hr
  have hout : default_output env p opt fs = (Except.ok (clean_sibling p), fs) := by
    unfold default_output
    rw [if_neg (not_not.mpr h)]
  have hpar : parent_path (clean_sibling p) = parent_of_dir (remove_filename p) := by
    rw [hsib, parent_path_of_relative _ (has_relative_path_append _ _ hr hne),
      remove_filename_dir_append _ _ hd hr]
  refine ⟨hout, hsib, ?_, stem_append_extension p, ?_, ?_, ?_, by decide, by decide, by decide⟩
  · rw [hsib]; exact filename_dir_append _ _ hd hr
  · rw [hsib]; exact remove_filename_dir_append _ _ hd hr
  · rw [hpar]
    cases hrel : has_relative_path p with
    | true => rw [parent_path_of_relative p hrel]; rfl
    | false =>
      have hp : parent_path p = p := by simp [parent_path, hrel]
      rw [hp, remove_filename_of_not_relative p hrel]
      by_cases hnil : p = []
      · subst hnil; rfl
      · have hs := strip_all_sep p (all_sep_of_not_relative p hrel)
        simp only [parent_of_dir, hnil, hs, if_true, if_false]
        unfold path_eq
        rw [elements_all_sep p hnil hrel]
        rfl
  · intro hrel
    rw [hpar, parent_path_of_relative p hrel]

/-- C2 at `dir/photo.jpg` in the world of the worked examples: the result is
`dir/photo.clean.jpg`, in the directory `dir`. -/
theorem default_output_is_clean_sibling_witness :
    ({} : Options).out_dir = []
    ∧ default_output demo_env "dir/photo.jpg".toList {} demo_fs
        = (Except.ok "dir/photo.clean.jpg".toList, demo_fs)
    ∧ parent_path (clean_sibling "dir/photo.jpg".toList) = "dir".toList :=
  ⟨rfl,
    (show clean_sibling "dir/photo.jpg".toList = "dir/photo.clean.jpg".toList by decide)
      ▸ (default_output_is_clean_sibling demo_env "dir/photo.jpg".toList {} demo_fs rfl).1,
    ((default_output_is_clean_sibling demo_env "dir/photo.jpg".toList {} demo_fs rfl).2.2.2.2.2.2.1
      (by decide)).trans (by decide)⟩

end CleanMeta

namespace CleanMeta

/-! ## Output resolution into `out_dir` -/

theorem mkdir_all_ok (env : Env) (hden : ∀ f k, env.mkdir_denied f k = false) (ms : List Key) :
    ∀ fs : FS, (∀ k ∈ ms, ∀ d, fs k ≠ some (Node.file d)) →
      ∃ b fs1, mkdir_all env fs ms = (Except.ok b, fs1) := by
  induction ms with
  | nil => intro fs _; exact ⟨false, fs, rfl⟩
  | cons k ks ih =>
    intro fs hfile
    unfold mkdir_all
    rcases create_directory_cases env fs k with ⟨hc, _⟩ | ⟨hc, _, _⟩ | ⟨_, hbad⟩
    · rw [hc]
      cases ks with
      | nil => exact ⟨_, _, rfl⟩
      | cons k2 ks2 =>
        exact ih fs (fun q hq d => hfile q (List.mem_cons_of_mem _ hq) d)
    · rw [hc]
      cases ks with
      | nil => exact ⟨_, _, rfl⟩
      | cons k2 ks2 =>
        apply ih
        intro q hq d
        unfold fs_set
        split
        · simp
        · exact hfile q (List.mem_cons_of_mem _ hq) d
    · rcases hbad with ⟨d, hd⟩ | ⟨_, hd⟩
      · exact absurd hd (hfile k (List.mem_cons_self _ _) d)
      · rw [hden] at hd; cases hd

/-- What `create_directories` does on a well-formed file system. -/
theorem create_directories_spec (env : Env) (fs : FS) (p : Str) (hne : p ≠ [])
    (hwf : fs_wf fs) (r : Except Exn Bool) (fs1 : FS)
    (h : create_directories env fs p = (r, fs1)) :
    (∀ k n, fs k = some n → fs1 k = some n)
    ∧ (∀ k, fs1 k ≠ fs k → fs k = none ∧ fs1 k = some Node.dir ∧ k <+: key p
        ∧ ∃ f, env.mkdir_denied f k = false)
    ∧ fs_wf fs1
    ∧ (∀ e, r = Except.error e → e = Exn.create_directories_failed)
    ∧ (∀ b, r = Except.ok b → fs1 (key p) = some Node.dir) := by
  unfold create_directories at h
  simp only [hne, if_false] at h
  cases hk : fs (key p) with
  | some n =>
    rw [hk] at h
    cases n with
    | dir =>
      simp only [Prod.mk.injEq] at h
      obtain ⟨hr, hf⟩ := h
      subst hr; subst hf
      refine ⟨fun _ _ h => h, fun q hq => absurd rfl hq, hwf, ?_, ?_⟩
      · intro e he; cases he
      · intro _ _; exact hk
    | file d =>
      simp only [Prod.mk.injEq] at h
      obtain ⟨hr, hf⟩ := h
      subst hr; subst hf
      refine ⟨fun _ _ h => h, fun q hq => absurd rfl hq, hwf, ?_, ?_⟩
      · intro e he; cases he; rfl
      · intro b hb; cases hb
  | none =>
    rw [hk] at h
    cases hcm : collect_missing fs (key p).reverse with
    | none =>
      rw [hcm] at h
      simp only [Prod.mk.injEq] at h
      obtain ⟨hr, hf⟩ := h
      subst hr; subst hf
      refine ⟨fun _ _ h => h, fun q hq => absurd rfl hq, hwf, ?_, ?_⟩
      · intro e he; cases he; rfl
      · intro b hb; cases hb
    | some ms =>
      rw [hcm] at h
      simp only at h
      have hkne : (key p).reverse ≠ [] := by
        intro h0
        have h1 : key p = [] := by simpa using h0
        rw [h1, hwf.1] at hk
        cases hk
      obtain ⟨par, hpar, hch, hlast, hpre⟩ := collect_missing_spec fs hwf _ ms hkne hcm
      rw [List.reverse_reverse] at hlast hpre
      obtain ⟨i1, i2, i3, i4⟩ := mkdir_all_spec env ms fs r fs1 h
      refine ⟨i1, ?_, mkdir_all_wf env ms par fs r fs1 hwf hpar hch h, i3, ?_⟩
      · intro q hq
        obtain ⟨a, b, c, d⟩ := i2 q hq
        exact ⟨b, c, hpre q a, d⟩
      · intro b hb
        exact i4 b hb _ (List.mem_of_getLast?_eq_some hlast)

/-- C3. With a non-empty `out_dir` on a well-formed file system: when `default_output`
returns, the result is `out_dir / filename(p)`, `out_dir` and every ancestor of it is a
directory, nothing that existed was changed, and a second call on the resulting file
system returns the same path and leaves the file system as it is; a failure is always the
directory-creation error, it occurs when `out_dir` or a location on the way to it is a
regular file or when the creation of the missing `out_dir` is refused; and the call
does return when nothing on the way is a regular file and no creation is refused. -/
theorem default_output_into_out_dir (env : Env) (p : Str) (opt : Options) (fs : FS)
    (hne : opt.out_dir ≠ []) (hwf : fs_wf fs) :
    (∀ out fs1, default_output env p opt fs = (Except.ok out, fs1) →
        out = path_append opt.out_dir (filename p)
        ∧ is_directory fs1 opt.out_dir = true
        ∧ (∀ k, k <+: key opt.out_dir → fs1 k = some Node.dir)
        ∧ (∀ k n, fs k = some n → fs1 k = some n)
        ∧ fs_wf fs1
        ∧ default_output env p opt fs1 = (Except.ok out, fs1))
    ∧ (∀ e fs1, default_output env p opt fs = (Except.error e, fs1) →
        e = Exn.create_directories_failed ∧ ∀ k n, fs k = some n → fs1 k = some n)
    ∧ (∀ c, status fs opt.out_dir = some (Node.file c) →
        default_output env p opt fs = (Except.error Exn.create_directories_failed, fs))
    ∧ ((∃ k c, k <+: key opt.out_dir ∧ fs k = some (Node.file c)) →
        ∃ fs1, default_output env p opt fs = (Except.error Exn.create_directories_failed, fs1))
    ∧ (status fs opt.out_dir = none → (∀ f, env.mkdir_denied f (key opt.out_dir) = true) →
        ∃ fs1, default_output env p opt fs = (Except.error Exn.create_directories_failed, fs1))
    ∧ ((∀ f k, env.mkdir_denied f k = false) →
        (∀ k c, k <+: key opt.out_dir → fs k ≠ some (Node.file c)) →
        ∃ fs1, default_output env p opt fs
          = (Except.ok (path_append opt.out_dir (filename p)), fs1)) := by
  have hstat : ∀ f : FS, status f opt.out_dir = f (key opt.out_dir) := by
    intro f; simp [status, hne]
  -- the shape of the result
  have hshape : ∀ r fs1, create_directories env fs opt.out_dir = (r, fs1) →
      default_output env p opt fs
        = (match r with
           | Except.error e => (Except.error e, fs1)
           | Except.ok _ => (Except.ok (path_append opt.out_dir (filename p)), fs1)) := by
    intro r fs1 hcd
    unfold default_output
    simp only [hne, ne_eq, not_false_eq_true, if_true, hcd]
    cases r <;> rfl
  -- the facts about a successful call
  have hok : ∀ out fs1, default_output env p opt fs = (Except.ok out, fs1) →
      out = path_append opt.out_dir (filename p)
      ∧ fs1 (key opt.out_dir) = some Node.dir
      ∧ (∀ k n, fs k = some n → fs1 k = some n)
      ∧ (∀ k, fs1 k ≠ fs k → ∃ f, env.mkdir_denied f k = false)
      ∧ fs_wf fs1 := by
    intro out fs1 h
    cases hcd : create_directories env fs opt.out_dir with
    | mk r fs2 =>
      rw [hshape r fs2 hcd] at h
      obtain ⟨s1, s2, s3, _, s5⟩ := create_directories_spec env fs _ hne hwf r fs2 hcd
      cases r with
      | error e => simp at h
      | ok b =>
        simp only [Prod.mk.injEq, Except.ok.injEq] at h
        obtain ⟨ho, hf⟩ := h
        subst ho; subst hf
        exact ⟨rfl, s5 b rfl, s1, fun k hk => (s2 k hk).2.2.2, s3⟩
  have herr : ∀ r fs1, default_output env p opt fs = (r, fs1) →
      (∀ out, r ≠ Except.ok out) → r = Except.error Exn.create_directories_failed := by
    intro r fs1 h hno
    cases hcd : create_directories env fs opt.out_dir with
    | mk r2 fs2 =>
      rw [hshape r2 fs2 hcd] at h
      obtain ⟨_, _, _, s4, _⟩ := create_directories_spec env fs _ hne hwf r2 fs2 hcd
      cases r2 with
      | error e =>
        simp only [Prod.mk.injEq] at h
        rw [← h.1, s4 e rfl]
      | ok b =>
        simp only [Prod.mk.injEq] at h
        exact absurd h.1.symm (hno _)
  have hfail : (∀ out fs1, default_output env p opt fs ≠ (Except.ok out, fs1)) →
      ∃ fs1, default_output env p opt fs = (Except.error Exn.create_directories_failed, fs1) := by
    intro hno
    cases hd : default_output env p opt fs with
    | mk r fs1 =>
      have := herr r fs1 hd (fun out ho => hno out fs1 (by rw [hd, ho]))
      exact ⟨fs1, by rw [this]⟩
  refine ⟨?_, ?_, ?_, ?_, ?_, ?_⟩
  · intro out fs1 h
    obtain ⟨h1, h2, h3, _, h5⟩ := hok out fs1 h
    refine ⟨h1, ?_, ?_, h3, h5, ?_⟩
    · simp [is_directory, hstat, h2]
    · intro k hk
      by_cases hkk : k = key opt.out_dir
      · rw [hkk]; exact h2
      · have := fs_wf_ancestors fs1 h5 (key opt.out_dir).reverse
        rw [List.reverse_reverse] at this
        exact this (by rw [h2]; rfl) k hk hkk
    · unfold default_output create_directories
      simp only [hne, ne_eq, not_false_eq_true, if_true, if_false, h2, h1]
  · intro e fs1 h
    cases hcd : create_directories env fs opt.out_dir with
    | mk r2 fs2 =>
      rw [hshape r2 fs2 hcd] at h
      obtain ⟨s1, _, _, s4, _⟩ := create_directories_spec env fs _ hne hwf r2 fs2 hcd
      cases r2 with
      | error e2 =>
        simp only [Prod.mk.injEq, Except.error.injEq] at h
        rw [← h.1, ← h.2]
        exact ⟨s4 e2 rfl, s1⟩
      | ok b => simp at h
  · intro c hc
    rw [hstat] at hc
    unfold default_output create_directories
    simp only [hne, ne_eq, not_false_eq_true, if_true, if_false, hc]
  · rintro ⟨k, c, hk, hkc⟩
    apply hfail
    intro out fs1 h
    obtain ⟨_, h2, h3, _, h5⟩ := hok out fs1 h
    have hfile := h3 k _ hkc
    by_cases hkk : k = key opt.out_dir
    · rw [hkk, h2] at hfile; cases hfile
    · have := fs_wf_ancestors fs1 h5 (key opt.out_dir).reverse
      rw [List.reverse_reverse] at this
      rw [this (by rw [h2]; rfl) k hk hkk] at hfile
      cases hfile
  · intro hnone hden
    rw [hstat] at hnone
    apply hfail
    intro out fs1 h
    obtain ⟨_, h2, _, h4, _⟩ := hok out fs1 h
    obtain ⟨f, hf⟩ := h4 (key opt.out_dir) (by rw [h2, hnone]; simp)
    rw [hden f] at hf
    cases hf
  · intro hden hfile
    unfold default_output create_directories
    simp only [hne, ne_eq, not_false_eq_true, if_true, if_false]
    cases hk : fs (key opt.out_dir) with
    | some n =>
      cases n with
      | dir => exact ⟨fs, rfl⟩
      | file d => exact absurd hk (hfile _ d (List.prefix_refl _))
    | none =>
      have hkne : (key opt.out_dir).reverse ≠ [] := by
        intro h0
        have h1 : key opt.out_dir = [] := by simpa using h0
        rw [h1, hwf.1] at hk
        cases hk
      have hk2 : fs (key opt.out_dir).reverse.reverse = none := by
        rw [List.reverse_reverse]; exact hk
      obtain ⟨ms, hms⟩ := collect_missing_some fs hwf _ hkne hk2
        (fun k hk d => hfile k d (by rw [List.reverse_reverse] at hk; exact hk))
      obtain ⟨par, _, _, _, hpre⟩ := collect_missing_spec fs hwf _ ms hkne hms
      rw [List.reverse_reverse] at hpre
      obtain ⟨b, fs1, hm⟩ := mkdir_all_ok env hden ms fs (fun k hk d => hfile k d (hpre k hk))
      exact ⟨fs1, by simp only [hms, hm]⟩

end CleanMeta

namespace CleanMeta

theorem prefix_of_pair (a b : Str) (k : Key) (h : k <+: [a, b]) :
    k = [] ∨ k = [a] ∨ k = [a, b] := by
  obtain ⟨t, ht⟩ := h
  cases k with
  | nil => exact Or.inl rfl
  | cons x k1 =>
    simp only [List.cons_append, List.cons.injEq] at ht
    obtain ⟨hx, ht⟩ := ht
    subst hx
    cases k1 with
    | nil => exact Or.inr (Or.inl rfl)
    | cons y k2 =>
      simp only [List.cons_append, List.cons.injEq] at ht
      obtain ⟨hy, ht⟩ := ht
      subst hy
      have : k2 = [] := (List.append_eq_nil.mp ht).1
      subst this
      exact Or.inr (Or.inr rfl)

/-- C3 at `photo.jpg` with `out_dir` = `out/sub` in the world of the worked examples,
where neither `out` nor `out/sub` exists: the call returns `out/sub/photo.jpg`. -/
theorem default_output_into_out_dir_witness :
    ({ out_dir := "out/sub".toList } : Options).out_dir ≠ []
    ∧ fs_wf demo_fs
    ∧ path_append "out/sub".toList (filename "photo.jpg".toList) = "out/sub/photo.jpg".toList
    ∧ ∃ fs1, default_output demo_env "photo.jpg".toList { out_dir := "out/sub".toList } demo_fs
        = (Except.ok (path_append "out/sub".toList (filename "photo.jpg".toList)), fs1) :=
  ⟨by decide, demo_fs_wf, by decide,
    (default_output_into_out_dir demo_env "photo.jpg".toList { out_dir := "out/sub".toList }
      demo_fs (by decide) demo_fs_wf).2.2.2.2.2 (fun _ _ => rfl)
      (fun k c hk => by
        have hkey : key "out/sub".toList = ["out".toList, "sub".toList] := by decide
        rw [hkey] at hk
        have e0 : demo_fs [] = some Node.dir := by decide
        have e1 : demo_fs ["out".toList] = none := by decide
        have e2 : demo_fs ["out".toList, "sub".toList] = none := by decide
        rcases prefix_of_pair _ _ k hk with h | h | h <;> subst h
        · rw [e0]; exact fun h => by cases h
        · rw [e1]; exact fun h => by cases h
        · rw [e2]; exact fun h => by cases h)⟩

end CleanMeta

namespace CleanMeta

/-! ## The backup of in-place cleaning -/

end CleanMeta

namespace CleanMeta

/-! ## Files of unsupported type -/

/-- Whatever `create_directories` does, it changes nothing that exists and what it adds
is a directory. -/
theorem create_directories_frame (env : Env) (fs : FS) (p : Str) :
    (∀ k n, fs k = some n → (create_directories env fs p).2 k = some n)
    ∧ (∀ k, (create_directories env fs p).2 k ≠ fs k →
        fs k = none ∧ (create_directories env fs p).2 k = some Node.dir) := by
  unfold create_directories
  split
  · exact ⟨fun _ _ h => h, fun k hk => absurd rfl hk⟩
  · split
    · exact ⟨fun _ _ h => h, fun k hk => absurd rfl hk⟩
    · exact ⟨fun _ _ h => h, fun k hk => absurd rfl hk⟩
    · split
      · exact ⟨fun _ _ h => h, fun k hk => absurd rfl hk⟩
      · rename_i ms _
        obtain ⟨i1, i2, _, _⟩ := mkdir_all_spec env ms fs _ _ rfl
        exact ⟨i1, fun k hk => ⟨(i2 k hk).2.1, (i2 k hk).2.2.1⟩⟩

/-- The output resolver changes nothing that exists, adds directories only, and touches
nothing at all when `out_dir` is empty. -/
theorem default_output_frame (env : Env) (p : Str) (opt : Options) (fs : FS) :
    (∀ k n, fs k = some n → (default_output env p opt fs).2 k = some n)
    ∧ (∀ k, (default_output env p opt fs).2 k ≠ fs k →
        fs k = none ∧ (default_output env p opt fs).2 k = some Node.dir)
    ∧ (opt.out_dir = [] → (default_output env p opt fs).2 = fs) := by
  have hcd := create_directories_frame env fs opt.out_dir
  have h2 : (default_output env p opt fs).2
      = if opt.out_dir ≠ [] then (create_directories env fs opt.out_dir).2 else fs := by
    unfold default_output
    split
    · cases hc : create_directories env fs opt.out_dir with
      | mk r fs1 => cases r <;> rfl
    · rfl
  rw [h2]
  by_cases ho : opt.out_dir = []
  · rw [if_neg (not_not.mpr ho)]
    exact ⟨fun _ _ h => h, fun k hk => absurd rfl hk, fun _ => rfl⟩
  · rw [if_pos ho]
    exact ⟨hcd.1, hcd.2, fun h => absurd h ho⟩

/-- The output resolution at the head of a per-file step changes nothing that exists and
adds directories only; in place or with `out_dir` empty it touches nothing and does not
fail. -/
theorem resolve_out_frame (env : Env) (opt : Options) (p : Str) (fs : FS) :
    (∀ k n, fs k = some n → (resolve_out env opt p fs).2 k = some n)
    ∧ (∀ k, (resolve_out env opt p fs).2 k ≠ fs k →
        fs k = none ∧ (resolve_out env opt p fs).2 k = some Node.dir
          ∧ opt.in_place = false ∧ opt.out_dir ≠ [])
    ∧ ((opt.in_place = true ∨ opt.out_dir = []) →
        (resolve_out env opt p fs).2 = fs ∧ ∃ out, (resolve_out env opt p fs).1 = Except.ok out) := by
  obtain ⟨d1, d2, d3⟩ := default_output_frame env p opt fs
  unfold resolve_out
  cases hin : opt.in_place with
  | true =>
    simp only [if_true]
    exact ⟨fun _ _ h => h, fun k hk => absurd rfl hk, fun _ => by simp⟩
  | false =>
    simp only [Bool.false_eq_true, if_false]
    refine ⟨d1, ?_, ?_⟩
    · intro k hk
      refine ⟨(d2 k hk).1, (d2 k hk).2, by simp, ?_⟩
      intro ho
      rw [d3 ho] at hk
      exact hk rfl
    · intro h
      rcases h with h | h
      · cases h
      · refine ⟨d3 h, ?_⟩
        unfold default_output
        rw [if_neg (not_not.mpr h)]
        exact ⟨_, rfl⟩

end CleanMeta

namespace CleanMeta

theorem mkdir_all_env (env : Env) (ex : List Nat → Bool × Option (List Nat))
    (sq : Str → FS → Int × Option (List Nat)) (ks : List Key) :
    ∀ fs, mkdir_all { env with exiv2 := ex, system_qpdf := sq } fs ks = mkdir_all env fs ks := by
  induction ks with
  | nil => intro fs; rfl
  | cons k ks ih =>
    intro fs
    unfold mkdir_all
    have hc : create_directory { env with exiv2 := ex, system_qpdf := sq } fs k
        = create_directory env fs k := rfl
    rw [hc]
    cases hcd : create_directory env fs k with
    | mk r fs1 =>
      cases r with
      | error e => rfl
      | ok b =>
        cases ks with
        | nil => rfl
        | cons k2 ks2 => exact ih fs1

/-- The output resolution does not depend on the two stripping capabilities. -/
theorem resolve_out_env (env : Env) (ex : List Nat → Bool × Option (List Nat))
    (sq : Str → FS → Int × Option (List Nat)) (opt : Options) (p : Str) (fs : FS) :
    resolve_out { env with exiv2 := ex, system_qpdf := sq } opt p fs = resolve_out env opt p fs := by
  unfold resolve_out default_output create_directories
  simp only [mkdir_all_env]

theorem not_image_of_unsupported (p : Str) (h : classify p = Kind.unsupported) :
    is_image p = false ∧ is_pdf p = false := by
  unfold classify at h
  cases h1 : is_image p <;> cases h2 : is_pdf p <;> simp [h1, h2] at h ⊢

/-- The command-line step on a file of unsupported type. -/
theorem handle_file_unsupported (env : Env) (opt : Options) (p : Str) (st : CliState)
    (h : classify p = Kind.unsupported) :
    handle_file env opt p st
      = if !is_regular_file st.w.fs p then (Except.ok (), st)
        else
          match (resolve_out env opt p st.w.fs).1 with
          | Except.error e =>
            (Except.error e,
              { st with total := st.total + 1,
                        w := { st.w with fs := (resolve_out env opt p st.w.fs).2 } })
          | Except.ok _ =>
            (Except.ok (),
              { st with total := st.total + 1,
                        warned_unsupported := st.warned_unsupported ++ [p],
                        w := { st.w with fs := (resolve_out env opt p st.w.fs).2 } }) := by
  obtain ⟨h1, h2⟩ := not_image_of_unsupported p h
  unfold handle_file
  split
  · rfl
  · cases hr : resolve_out env opt p st.w.fs with
    | mk r fs1 =>
      cases r with
      | error e => rfl
      | ok out => simp only [h1, h2, Bool.false_eq_true, if_false]

/-- The worker's `try` block on a file of unsupported type. -/
theorem worker_try_unsupported (env : Env) (opt : Options) (p : Str) (w : World)
    (h : classify p = Kind.unsupported) :
    worker_try env opt p w
      = match (resolve_out env opt p w.fs).1 with
        | Except.error e =>
          ("[ERROR] ".toList ++ filename p ++ " - ".toList ++ env.what e, false,
            { w with fs := (resolve_out env opt p w.fs).2 })
        | Except.ok _ =>
          ("[WARNING] Unsupported file type: ".toList ++ filename p, false,
            { w with fs := (resolve_out env opt p w.fs).2 }) := by
  obtain ⟨h1, h2⟩ := not_image_of_unsupported p h
  unfold worker_try
  cases hr : resolve_out env opt p w.fs with
  | mk r fs1 =>
    cases r with
    | error e => rfl
    | ok out => simp only [h1, h2, Bool.false_eq_true, if_false]

theorem handle_file_unsupported_fs (env : Env) (opt : Options) (p : Str) (st : CliState)
    (h : classify p = Kind.unsupported) :
    ((handle_file env opt p st).2.w.fs = st.w.fs
      ∨ (handle_file env opt p st).2.w.fs = (resolve_out env opt p st.w.fs).2)
    ∧ (handle_file env opt p st).2.ok = st.ok
    ∧ (handle_file env opt p st).2.w.qpdf_path_cached = st.w.qpdf_path_cached := by
  rw [handle_file_unsupported env opt p st h]
  split
  · exact ⟨Or.inl rfl, rfl, rfl⟩
  · cases (resolve_out env opt p st.w.fs).1 with
    | error e => exact ⟨Or.inr rfl, rfl, rfl⟩
    | ok out => exact ⟨Or.inr rfl, rfl, rfl⟩

theorem worker_try_unsupported_fs (env : Env) (opt : Options) (p : Str) (w : World)
    (h : classify p = Kind.unsupported) :
    (worker_try env opt p w).2.2.fs = (resolve_out env opt p w.fs).2
    ∧ (worker_try env opt p w).2.1 = false
    ∧ (worker_try env opt p w).2.2.qpdf_path_cached = w.qpdf_path_cached := by
  rw [worker_try_unsupported env opt p w h]
  cases (resolve_out env opt p w.fs).1 with
  | error e => exact ⟨rfl, rfl, rfl⟩
  | ok out => exact ⟨rfl, rfl, rfl⟩

end CleanMeta

namespace CleanMeta

/-- C5, as stated, fails: with `out_dir` set to a directory that does not exist yet, the
per-file step on the unsupported `readme.txt` creates that directory, in the command-line
driver and in the worker alike. -/
theorem unsupported_file_with_out_dir_creates_directory :
    classify "readme.txt".toList = Kind.unsupported
    ∧ demo_fs (key "out".toList) = none
    ∧ (handle_file demo_env { out_dir := "out".toList } "readme.txt".toList demo_state).2.w.fs
        (key "out".toList) = some Node.dir
    ∧ (worker_try demo_env { out_dir := "out".toList } "readme.txt".toList demo_world).2.2.fs
        (key "out".toList) = some Node.dir := by
  decide

/-- C5, amended. Processing a file of unsupported type, in the command-line driver and
in the worker, with any options: nothing that exists is changed and the only thing that
can appear is a directory, created by the output resolver when not in place and
`out_dir` is set (so no output file and no backup is made); in place or with `out_dir`
empty the world is left exactly as it was; the file is not counted as cleaned, the qpdf
lookup is not run, and the result does not depend on the two stripping capabilities. -/
theorem unsupported_file_changes_no_file (env : Env) (opt : Options) (p : Str)
    (h : classify p = Kind.unsupported) :
    (∀ st : CliState,
      (∀ k n, st.w.fs k = some n → (handle_file env opt p st).2.w.fs k = some n)
      ∧ (∀ k, (handle_file env opt p st).2.w.fs k ≠ st.w.fs k →
          st.w.fs k = none ∧ (handle_file env opt p st).2.w.fs k = some Node.dir
            ∧ opt.in_place = false ∧ opt.out_dir ≠ [])
      ∧ ((opt.in_place = true ∨ opt.out_dir = []) →
          (handle_file env opt p st).2.w = st.w ∧ (handle_file env opt p st).1 = Except.ok ())
      ∧ (handle_file env opt p st).2.ok = st.ok
      ∧ (handle_file env opt p st).2.w.qpdf_path_cached = st.w.qpdf_path_cached
      ∧ ∀ ex sq, handle_file { env with exiv2 := ex, system_qpdf := sq } opt p st
          = handle_file env opt p st)
    ∧ (∀ w : World,
      (∀ k n, w.fs k = some n → (worker_try env opt p w).2.2.fs k = some n)
      ∧ (∀ k, (worker_try env opt p w).2.2.fs k ≠ w.fs k →
          w.fs k = none ∧ (worker_try env opt p w).2.2.fs k = some Node.dir
            ∧ opt.in_place = false ∧ opt.out_dir ≠ [])
      ∧ ((opt.in_place = true ∨ opt.out_dir = []) →
          (worker_try env opt p w).2.2 = w
          ∧ (worker_try env opt p w).1 = "[WARNING] Unsupported file type: ".toList ++ filename p)
      ∧ (worker_try env opt p w).2.1 = false
      ∧ (worker_try env opt p w).2.2.qpdf_path_cached = w.qpdf_path_cached
      ∧ ∀ ex sq, worker_try { env with exiv2 := ex, system_qpdf := sq } opt p w
          = worker_try env opt p w) := by
  constructor
  · intro st
    obtain ⟨r1, r2, r3⟩ := resolve_out_frame env opt p st.w.fs
    obtain ⟨f1, f2, f3⟩ := handle_file_unsupported_fs env opt p st h
    refine ⟨?_, ?_, ?_, f2, f3, ?_⟩
    · intro k n hk
      rcases f1 with f1 | f1
      · rw [f1]; exact hk
      · rw [f1]; exact r1 k n hk
    · intro k hk
      rcases f1 with f1 | f1
      · rw [f1] at hk; exact absurd rfl hk
      · rw [f1] at hk ⊢; exact r2 k hk
    · intro hm
      obtain ⟨r4, out, r5⟩ := r3 hm
      rw [handle_file_unsupported env opt p st h]
      split
      · exact ⟨rfl, rfl⟩
      · rw [r5, r4]
        exact ⟨rfl, rfl⟩
    · intro ex sq
      rw [handle_file_unsupported _ opt p st h, handle_file_unsupported env opt p st h,
        resolve_out_env]
  · intro w
    obtain ⟨r1, r2, r3⟩ := resolve_out_frame env opt p w.fs
    obtain ⟨f1, f2, f3⟩ := worker_try_unsupported_fs env opt p w h
    refine ⟨?_, ?_, ?_, f2, f3, ?_⟩
    · intro k n hk
      rw [f1]; exact r1 k n hk
    · intro k hk
      rw [f1] at hk ⊢; exact r2 k hk
    · intro hm
      obtain ⟨r4, out, r5⟩ := r3 hm
      rw [worker_try_unsupported env opt p w h, r5, r4]
      exact ⟨rfl, rfl⟩
    · intro ex sq
      rw [worker_try_unsupported _ opt p w h, worker_try_unsupported env opt p w h,
        resolve_out_env]

/-- C5 amended, at `readme.txt`. -/
theorem unsupported_file_changes_no_file_witness :
    classify "readme.txt".toList = Kind.unsupported
    ∧ (handle_file demo_env { out_dir := "out".toList } "readme.txt".toList demo_state).2.w.fs
        (key "readme.txt".toList) = some (Node.file [7, 8])
    ∧ (handle_file demo_env { in_place := true } "readme.txt".toList demo_state).2.w = demo_world :=
  ⟨by decide,
    ((unsupported_file_changes_no_file demo_env { out_dir := "out".toList } "readme.txt".toList
      (by decide)).1 demo_state).1 _ _ (by decide),
    (((unsupported_file_changes_no_file demo_env { in_place := true } "readme.txt".toList
      (by decide)).1 demo_state).2.2.1 (Or.inl rfl)).1⟩

end CleanMeta

namespace CleanMeta

/-! ## Copy mode without `out_dir` -/

theorem resolve_out_sibling (env : Env) (opt : Options) (p : Str) (fs : FS)
    (hin : opt.in_place = false) (hout : opt.out_dir = []) :
    resolve_out env opt p fs = (Except.ok (clean_sibling p), fs) := by
  unfold resolve_out default_output
  rw [hin]
  simp only [Bool.false_eq_true, if_false]
  rw [if_neg (not_not.mpr hout)]

/-- Document cleaning into a copy changes the copy only and raises nothing. -/
theorem clean_pdf_copy_frame (env : Env) (p out : Str) (opt : Options) (w : World)
    (hin : opt.in_place = false) :
    (∃ b, (clean_pdf env p out opt w).1 = Except.ok b)
    ∧ ∀ k, k ≠ key out → (clean_pdf env p out opt w).2.fs k = w.fs k := by
  have hfs := find_qpdf_fs env w
  unfold clean_pdf
  simp only [hin, Bool.false_eq_true, if_false]
  split
  · exact ⟨⟨_, rfl⟩, fun k _ => by rw [hfs]⟩
  · refine ⟨⟨_, rfl⟩, ?_⟩
    intro k hk
    simp only
    rw [run_qpdf_frame env _ _ _ k hk, hfs]

end CleanMeta

namespace CleanMeta

end CleanMeta

namespace CleanMeta

/-! ## Failure isolation -/

/-- C7, the failing runs of the command-line driver. With `-o blocked`, where `blocked`
is a regular file, the directory-creation error of the output resolver leaves `main`:
the run ends in `std::terminate` at the first file, the second file is never processed
and no summary is printed. With `--in-place` and a qpdf that exits with status 0 without
writing its output, the rename error of `clean_pdf` does the same. The worker of the
graphical front end, on the first of these inputs, reports both files and the summary. -/
theorem cli_exception_ends_the_batch :
    parse_args ["-o".toList, "blocked".toList, "photo.jpg".toList, "doc.pdf".toList] {} []
        = Parsed.run { out_dir := "blocked".toList } ["photo.jpg".toList, "doc.pdf".toList]
    ∧ demo_world.fs (key "blocked".toList) = some (Node.file [0])
    ∧ (cli_main demo_env
          ["-o".toList, "blocked".toList, "photo.jpg".toList, "doc.pdf".toList] demo_world).1
        = CliResult.terminate Exn.create_directories_failed
    ∧ (handle_all demo_env { out_dir := "blocked".toList }
          ["photo.jpg".toList, "doc.pdf".toList] demo_state).2.total = 1
    ∧ (cli_main demo_env_idle_qpdf
          ["--in-place".toList, "doc.pdf".toList, "photo.jpg".toList] demo_world).1
        = CliResult.terminate Exn.rename_failed
    ∧ (process_files_worker demo_env
          { demo_gui ["photo.jpg".toList, "doc.pdf".toList] with
            output_dir_input := "blocked".toList }).log_queue
        = ["[ERROR] photo.jpg - filesystem error".toList,
           "[ERROR] doc.pdf - filesystem error".toList,
           "\n=== PROCESSING COMPLETE ===".toList,
           "Successfully processed 0 out of 2 files.".toList] := by
  decide

end CleanMeta

namespace CleanMeta

/-! ## In-place document cleaning -/

end CleanMeta

namespace CleanMeta

end CleanMeta

namespace CleanMeta

/-! ## The exit code of the command-line driver -/

/-- The exit code on the runs that parse and complete: 0 and nothing touched when the
argument loop meets `-h` or `--help`, 1 and nothing touched when no input was given, and
otherwise 0 if the cleaned count equals the counted files and 2 if not. -/
theorem cli_main_on_completed_runs (env : Env) (args : List Str) (w : World) :
    (parse_args args {} [] = Parsed.help → cli_main env args w = (CliResult.exit 0 none, w))
    ∧ (∀ opt, parse_args args {} [] = Parsed.run opt [] →
        cli_main env args w = (CliResult.exit 1 none, w))
    ∧ (∀ opt inputs st, parse_args args {} [] = Parsed.run opt inputs → inputs ≠ [] →
        handle_all env opt inputs
            { total := 0, ok := 0, warned_unsupported := [], warned_skipping_dir := [], w := w }
          = (Except.ok (), st) →
        cli_main env args w
          = (CliResult.exit (if st.ok = st.total then 0 else 2) (some (st.ok, st.total)), st.w))
    := by
  refine ⟨?_, ?_, ?_⟩
  · intro h
    unfold cli_main
    rw [h]
  · intro opt h
    unfold cli_main
    rw [h]
    rfl
  · intro opt inputs st h hne hrun
    unfold cli_main
    rw [h]
    simp only [hne, if_false, hrun]

/-- C9, the failing runs. When `-o` or `--out` is the last argument the loop reads
`argv[argc]`, a null pointer, and builds a path from it: the behaviour is undefined, for
every environment and world, where the claim expects exit code 1 (no input given) or 0
or 2. When an exception leaves `main` (here the output directory is a regular file) the
process ends in `std::terminate` and returns neither 0 nor 2. -/
theorem cli_exit_code_missing_for_dangling_out_option :
    parse_args ["-o".toList] {} [] = Parsed.null_argument
    ∧ (∀ (env : Env) (w : World),
        (cli_main env ["-o".toList] w).1 = CliResult.undefined_behaviour
        ∧ (cli_main env ["photo.jpg".toList, "--out".toList] w).1
            = CliResult.undefined_behaviour)
    ∧ (cli_main demo_env ["-o".toList, "blocked".toList, "photo.jpg".toList] demo_world).1
        = CliResult.terminate Exn.create_directories_failed := by
  refine ⟨by decide, fun env w => ⟨rfl, rfl⟩, by decide⟩

end CleanMeta

namespace CleanMeta

/-! ## Unsupported files and the exit code -/

/-- One command-line step keeps the counters consistent, and reports as unsupported
only the file at hand, and only when its kind is unsupported. -/
theorem handle_file_counted (env : Env) (opt : Options) (p : Str) (st : CliState)
    (hc : counted st) :
    counted (handle_file env opt p st).2
    ∧ ∀ q ∈ (handle_file env opt p st).2.warned_unsupported,
        q ∈ st.warned_unsupported ∨ (q = p ∧ classify p = Kind.unsupported) := by
  unfold counted at hc ⊢
  unfold handle_file
  split
  · exact ⟨hc, fun q hq => Or.inl hq⟩
  · cases hr : resolve_out env opt p st.w.fs with
    | mk r fs1 =>
      cases r with
      | error e =>
        simp only
        exact ⟨by omega, fun q hq => Or.inl hq⟩
      | ok out =>
        simp only
        cases hi : is_image p with
        | true =>
          simp only [if_true]
          refine ⟨?_, fun q hq => Or.inl hq⟩
          split <;> omega
        | false =>
          simp only [Bool.false_eq_true, if_false]
          cases hd : is_pdf p with
          | true =>
            simp only [if_true]
            cases hcp : clean_pdf env p out opt { st.w with fs := fs1 } with
            | mk r2 w2 =>
              cases r2 with
              | error e => exact ⟨by simp only; omega, fun q hq => Or.inl hq⟩
              | ok b =>
                refine ⟨?_, fun q hq => Or.inl hq⟩
                simp only
                split <;> omega
          | false =>
            simp only [Bool.false_eq_true, if_false]
            refine ⟨?_, ?_⟩
            · simp only [List.length_append, List.length_singleton]
              omega
            · intro q hq
              simp only [List.mem_append, List.mem_singleton] at hq
              rcases hq with hq | hq
              · exact Or.inl hq
              · right
                refine ⟨hq, ?_⟩
                simp [classify, hi, hd]

theorem handle_entries_counted (env : Env) (opt : Options) (es : List Str) :
    ∀ st, counted st →
      counted (handle_entries env opt es st).2
      ∧ ∀ q ∈ (handle_entries env opt es st).2.warned_unsupported,
          q ∈ st.warned_unsupported ∨ classify q = Kind.unsupported := by
  induction es with
  | nil => intro st hc; exact ⟨hc, fun q hq => Or.inl hq⟩
  | cons e es ih =>
    intro st hc
    unfold handle_entries
    split
    · exact ⟨hc, fun q hq => Or.inl hq⟩
    split
    · obtain ⟨h1, h2⟩ := handle_file_counted env opt e st hc
      cases hf : handle_file env opt e st with
      | mk r st1 =>
        rw [hf] at h1 h2
        simp only at h1 h2
        have hstep : ∀ q ∈ st1.warned_unsupported,
            q ∈ st.warned_unsupported ∨ classify q = Kind.unsupported := by
          intro q hq
          rcases h2 q hq with h | ⟨h, h'⟩
          · exact Or.inl h
          · right; rw [h]; exact h'
        cases r with
        | error x => exact ⟨h1, hstep⟩
        | ok u =>
          simp only
          obtain ⟨i1, i2⟩ := ih st1 h1
          refine ⟨i1, ?_⟩
          intro q hq
          rcases i2 q hq with h | h
          · exact hstep q h
          · exact Or.inr h
    · exact ih st hc

theorem handle_counted (env : Env) (opt : Options) (p : Str) (st : CliState) (hc : counted st) :
    counted (handle env opt p st).2
    ∧ ∀ q ∈ (handle env opt p st).2.warned_unsupported,
        q ∈ st.warned_unsupported ∨ classify q = Kind.unsupported := by
  unfold handle
  split
  · exact ⟨hc, fun q hq => Or.inl hq⟩
  split
  · split
    · exact ⟨hc, fun q hq => Or.inl hq⟩
    · have h := handle_entries_counted env opt (env.readdir st.w.fs p).1 st hc
      cases hf : handle_entries env opt (env.readdir st.w.fs p).1 st with
      | mk r st1 =>
        rw [hf] at h
        cases r with
        | error x => exact h
        | ok u =>
          simp only
          split
          · exact h
          · exact h
  · obtain ⟨h1, h2⟩ := handle_file_counted env opt p st hc
    refine ⟨h1, ?_⟩
    intro q hq
    rcases h2 q hq with h | ⟨h, h'⟩
    · exact Or.inl h
    · right; rw [h]; exact h'

theorem handle_all_counted (env : Env) (opt : Options) (inputs : List Str) :
    ∀ st, counted st →
      counted (handle_all env opt inputs st).2
      ∧ ∀ q ∈ (handle_all env opt inputs st).2.warned_unsupported,
          q ∈ st.warned_unsupported ∨ classify q = Kind.unsupported := by
  induction inputs with
  | nil => intro st hc; exact ⟨hc, fun q hq => Or.inl hq⟩
  | cons f fs ih =>
    intro st hc
    obtain ⟨h1, h2⟩ := handle_counted env opt f st hc
    unfold handle_all
    cases hf : handle env opt f st with
    | mk r st1 =>
      rw [hf] at h1 h2
      simp only at h1 h2
      cases r with
      | error x => exact ⟨h1, h2⟩
      | ok u =>
        simp only
        obtain ⟨i1, i2⟩ := ih st1 h1
        refine ⟨i1, ?_⟩
        intro q hq
        rcases i2 q hq with h | h
        · exact h2 q h
        · exact Or.inr h

/-- C10, as stated, fails: on the inputs `photo.jpg` and `readme.txt`, `photo.jpg` is
cleaned successfully, no cleaning fails, `readme.txt` is reported as unsupported, and the
exit code is 2 with the summary "1 / 2". -/
theorem unsupported_file_gives_exit_code_two_example :
    (clean_image demo_env "photo.jpg".toList (clean_sibling "photo.jpg".toList) {} demo_world).1
        = true
    ∧ classify "readme.txt".toList = Kind.unsupported
    ∧ (cli_main demo_env ["photo.jpg".toList, "readme.txt".toList] demo_world).1
        = CliResult.exit 2 (some (1, 2))
    ∧ (handle_all demo_env {} ["photo.jpg".toList, "readme.txt".toList]
          demo_state).2.warned_unsupported = ["readme.txt".toList] := by
  decide

/-- C10, amended. An unsupported regular file is counted but never as cleaned. A run of
the command-line driver whose batch loop completes exits with 0 when the cleaned count
equals the counted files and with 2 otherwise; the cleaned files and the files reported
unsupported together never exceed the counted files, so a completed run in which some
file was reported as unsupported exits with 2, and a run that exits with 0 reported none.
Every reported path has unsupported kind, and the step on an unsupported regular file,
when the output resolution does not fail, counts it, reports it and leaves the cleaned
count as it is. -/
theorem unsupported_file_counts_against_exit_code (env : Env) (args : List Str) (w : World) :
    (∀ opt inputs st, parse_args args {} [] = Parsed.run opt inputs → inputs ≠ [] →
        handle_all env opt inputs
            { total := 0, ok := 0, warned_unsupported := [], warned_skipping_dir := [], w := w }
          = (Except.ok (), st) →
        (cli_main env args w).1
            = CliResult.exit (if st.ok = st.total then 0 else 2) (some (st.ok, st.total))
        ∧ st.ok + st.warned_unsupported.length ≤ st.total
        ∧ (st.warned_unsupported ≠ [] →
            (cli_main env args w).1 = CliResult.exit 2 (some (st.ok, st.total)))
        ∧ ((cli_main env args w).1 = CliResult.exit 0 (some (st.ok, st.total)) →
            st.warned_unsupported = [])
        ∧ ∀ q ∈ st.warned_unsupported, classify q = Kind.unsupported)
    ∧ (∀ (opt : Options) (p : Str) (st st1 : CliState), classify p = Kind.unsupported →
        is_regular_file st.w.fs p = true → handle_file env opt p st = (Except.ok (), st1) →
        st1.total = st.total + 1 ∧ st1.ok = st.ok
        ∧ st1.warned_unsupported = st.warned_unsupported ++ [p]) := by
  constructor
  · intro opt inputs st hp hne hrun
    have h0 : counted
        { total := 0, ok := 0, warned_unsupported := [], warned_skipping_dir := [], w := w } := by
      simp [counted]
    obtain ⟨c1, c2⟩ := handle_all_counted env opt inputs _ h0
    rw [hrun] at c1 c2
    simp only at c1 c2
    unfold counted at c1
    have hmain : (cli_main env args w).1
        = CliResult.exit (if st.ok = st.total then 0 else 2) (some (st.ok, st.total)) := by
      unfold cli_main
      rw [hp]
      simp only [hne, if_false, hrun]
    refine ⟨hmain, c1, ?_, ?_, ?_⟩
    · intro hw
      rw [hmain]
      have hlen : 0 < st.warned_unsupported.length := List.length_pos.mpr hw
      have hneq : st.ok ≠ st.total := by omega
      simp [hneq]
    · intro h0'
      rw [hmain] at h0'
      by_contra hw
      have hlen : 0 < st.warned_unsupported.length := List.length_pos.mpr hw
      have hneq : st.ok ≠ st.total := by omega
      simp [hneq] at h0'
    · intro q hq
      rcases c2 q hq with h | h
      · simp at h
      · exact h
  · intro opt p st st1 hu hreg hstep
    rw [handle_file_unsupported env opt p st hu] at hstep
    simp only [hreg, Bool.not_true, Bool.false_eq_true, if_false] at hstep
    cases hr : (resolve_out env opt p st.w.fs).1 with
    | error e =>
      rw [hr] at hstep
      simp at hstep
    | ok out =>
      rw [hr] at hstep
      simp only [Prod.mk.injEq, true_and] at hstep
      rw [← hstep]
      exact ⟨rfl, rfl, rfl⟩

end CleanMeta

namespace CleanMeta

/-! ## The log of the worker -/

/-- The world after the worker loop over a list of files. -/
theorem worker_fold_spec (env : Env) (opt : Options) (files : List Str) :
    ∀ st : WorkerState,
      (files.foldl (worker_step env opt) st).log_queue
          = st.log_queue ++ (worker_outcomes env opt files st.w).map Prod.fst
      ∧ (files.foldl (worker_step env opt) st).processed = st.processed + files.length
      ∧ (files.foldl (worker_step env opt) st).successful
          = st.successful + ((worker_outcomes env opt files st.w).filter (fun o => o.2)).length
      ∧ (files.foldl (worker_step env opt) st).w
          = files.foldl (fun w f => (worker_try env opt f w).2.2) st.w := by
  induction files with
  | nil => intro st; simp [worker_outcomes]
  | cons f fs ih =>
    intro st
    obtain ⟨h1, h2, h3, h4⟩ := ih (worker_step env opt st f)
    simp only [List.foldl_cons]
    rw [h1, h2, h3, h4]
    refine ⟨?_, ?_, ?_, ?_⟩
    · simp [worker_step, worker_outcomes]
    · simp only [worker_step, List.length_cons]; omega
    · simp only [worker_step, worker_outcomes]
      cases hf : (worker_try env opt f st.w).2.1 with
      | true => simp [List.filter, hf]; omega
      | false => simp [List.filter, hf]
    · simp [worker_step]

theorem infix_middle (a b c : Str) : b <:+: a ++ b ++ c := ⟨a, c, rfl⟩

theorem infix_end (a b : Str) : b <:+: a ++ b := ⟨a, [], by simp⟩

/-- The message of one iteration names the file, and starts with `[OK] ` exactly when
the file counted as successful. -/
theorem worker_try_message (env : Env) (opt : Options) (path : Str) (w : World) :
    filename path <:+: (worker_try env opt path w).1
    ∧ ((worker_try env opt path w).2.1 = true ↔ "[OK] ".toList <+: (worker_try env opt path w).1)
    ∧ ((worker_try env opt path w).2.1 = true → is_image path = true ∨ is_pdf path = true) := by
  have hok : ∀ t : Str, "[OK] ".toList <+: "[OK] ".toList ++ t := fun t => List.prefix_append _ _
  have herr : ∀ t : Str, ¬ ("[OK] ".toList <+: "[ERROR] ".toList ++ t) := by
    intro t h
    simp [List.cons_prefix_cons] at h
  have herr2 : ∀ t : Str, ¬ ("[OK] ".toList <+: "[ERROR] Failed to process image: ".toList ++ t) := by
    intro t h
    simp [List.cons_prefix_cons] at h
  have herr3 : ∀ t : Str, ¬ ("[OK] ".toList <+: "[ERROR] Failed to process PDF: ".toList ++ t) := by
    intro t h
    simp [List.cons_prefix_cons] at h
  have hwarn : ∀ t : Str, ¬ ("[OK] ".toList <+: "[WARNING] Unsupported file type: ".toList ++ t) := by
    intro t h
    simp [List.cons_prefix_cons] at h
  unfold worker_try
  cases hr : resolve_out env opt path w.fs with
  | mk r fs1 =>
    cases r with
    | error e =>
      simp only
      refine ⟨?_, ?_, ?_⟩
      · rw [List.append_assoc]; exact infix_middle _ _ _
      · constructor
        · intro h; cases h
        · intro h; rw [List.append_assoc, List.append_assoc] at h; exact absurd h (herr _)
      · intro h; cases h
    | ok out =>
      simp only
      cases hi : is_image path with
      | true =>
        simp only [if_true]
        cases hc : (clean_image env path out opt { w with fs := fs1 }).1 with
        | true =>
          simp only [if_true]
          refine ⟨infix_middle _ _ _, ?_, fun _ => by simp⟩
          constructor
          · intro _; rw [List.append_assoc]; exact hok _
          · intro _; trivial
        | false =>
          simp only [Bool.false_eq_true, if_false]
          refine ⟨infix_end _ _, ?_, ?_⟩
          · constructor
            · intro h; cases h
            · intro h; exact absurd h (herr2 _)
          · intro h; cases h
      | false =>
        simp only [Bool.false_eq_true, if_false]
        cases hd : is_pdf path with
        | true =>
          simp only [if_true]
          cases hcp : clean_pdf env path out opt { w with fs := fs1 } with
          | mk r2 w2 =>
            cases r2 with
            | error e =>
              simp only
              refine ⟨?_, ?_, ?_⟩
              · rw [List.append_assoc]; exact infix_middle _ _ _
              · constructor
                · intro h; cases h
                · intro h; rw [List.append_assoc, List.append_assoc] at h; exact absurd h (herr _)
              · intro h; cases h
            | ok b =>
              cases b with
              | true =>
                simp only
                refine ⟨infix_middle _ _ _, ?_, fun _ => by simp⟩
                constructor
                · intro _; rw [List.append_assoc]; exact hok _
                · intro _; trivial
              | false =>
                simp only
                refine ⟨infix_end _ _, ?_, ?_⟩
                · constructor
                  · intro h; cases h
                  · intro h; exact absurd h (herr3 _)
                · intro h; cases h
        | false =>
          simp only [Bool.false_eq_true, if_false]
          refine ⟨infix_end _ _, ?_, ?_⟩
          · constructor
            · intro h; cases h
            · intro h; exact absurd h (hwarn _)
          · intro h; cases h

theorem worker_queue (env : Env) (g : Gui) :
    (process_files_worker env g).log_queue
      = g.log_queue
        ++ (worker_outcomes env (gui_options g) g.selected_files g.w).map Prod.fst
        ++ summary_lines
            ((worker_outcomes env (gui_options g) g.selected_files g.w).filter
              (fun o => o.2)).length
            g.selected_files.length := by
  obtain ⟨h1, h2, h3, _⟩ := worker_fold_spec env (gui_options g) g.selected_files
    { processed := 0, successful := 0, log_queue := g.log_queue, progress := g.progress,
      w := g.w }
  unfold process_files_worker
  simp only
  rw [h1, h2, h3]
  simp

end CleanMeta

namespace CleanMeta

/-! ## Starting a batch -/

/-- C12. A start request issued while the running flag is set, or with no file selected,
is a no-op: the whole state is returned as it was (progress, total, flag, messages, log
buffer, queue) and no worker is started. A start request in the idle state with files
selected starts a worker and sets the total to the number of selected files, the
progress to 0 and the flag to running, clears the messages and the log buffer and leaves
the rest as it was; a second request right after it is a no-op; and the worker ends
with the flag cleared, so that the next request is accepted again. -/
theorem process_files_is_reentrancy_safe (g : Gui) :
    ((g.processing = true ∨ g.selected_files = []) → process_files g = (g, false))
    ∧ (g.processing = false → g.selected_files ≠ [] →
        (process_files g).2 = true
        ∧ (process_files g).1.total_files = g.selected_files.length
        ∧ (process_files g).1.progress = 0
        ∧ (process_files g).1.processing = true
        ∧ (process_files g).1.log_messages = []
        ∧ (process_files g).1.log_buffer = []
        ∧ (process_files g).1.selected_files = g.selected_files
        ∧ (process_files g).1.log_queue = g.log_queue
        ∧ (process_files g).1.w = g.w
        ∧ gui_options (process_files g).1 = gui_options g
        ∧ process_files (process_files g).1 = ((process_files g).1, false)
        ∧ ∀ env : Env,
            (process_files_worker env (process_files g).1).processing = false
            ∧ (process_files_worker env (process_files g).1).total_files
                = g.selected_files.length
            ∧ (process_files_worker env (process_files g).1).progress
                = g.selected_files.length
            ∧ (process_files (process_files_worker env (process_files g).1)).2 = true) := by
  constructor
  · intro h
    unfold process_files
    rw [if_pos]
    rcases h with h | h
    · exact Or.inl (by rw [h])
    · exact Or.inr h
  · intro hp hne
    have hstart : process_files g
        = ({ g with processing := true, progress := 0,
                    total_files := g.selected_files.length, log_buffer := [],
                    log_messages := [] }, true) := by
      unfold process_files
      simp [hp, hne]
    rw [hstart]
    refine ⟨rfl, rfl, rfl, rfl, rfl, rfl, rfl, rfl, rfl, rfl, ?_, ?_⟩
    · unfold process_files
      simp
    · intro env
      have h2 : ∀ (o : Options) (st : WorkerState),
          (g.selected_files.foldl (worker_step env o) st).processed
            = st.processed + g.selected_files.length :=
        fun o st => (worker_fold_spec env o g.selected_files st).2.1
      have hprog : ∀ (fs : List Str) (st : WorkerState) (o : Options), fs ≠ [] →
          (fs.foldl (worker_step env o) st).progress
            = (fs.foldl (worker_step env o) st).processed := by
        intro fs
        induction fs using List.reverseRecOn with
        | nil => intro st o h; exact absurd rfl h
        | append_singleton xs x _ =>
          intro st o _
          simp [List.foldl_append, worker_step]
      refine ⟨rfl, rfl, ?_, ?_⟩
      · unfold process_files_worker
        simp only
        rw [hprog _ _ _ hne, h2]
        simp
      · unfold process_files process_files_worker
        simp [hne]

end CleanMeta

namespace CleanMeta

/-! ## What the summary counts -/

theorem is_regular_file_iff (fs : FS) (p : Str) :
    is_regular_file fs p = true ↔ p ≠ [] ∧ ∃ c, fs (key p) = some (Node.file c) := by
  unfold is_regular_file status
  by_cases hp : p = []
  · simp [hp]
  · simp only [hp, if_false, ne_eq, not_false_eq_true, true_and]
    cases h : fs (key p) with
    | none => simp
    | some n => cases n <;> simp

theorem fs_set_file_keeps (fs : FS) (k q : Key) (c : List Nat)
    (h : ∃ d, fs q = some (Node.file d)) : ∃ d, fs_set fs k (Node.file c) q = some (Node.file d) := by
  unfold fs_set
  split
  · exact ⟨c, rfl⟩
  · exact h

theorem strip_image_keeps (env : Env) (fs : FS) (t : Str) (q : Key)
    (h : ∃ d, fs q = some (Node.file d)) :
    ∃ d, (strip_image env fs t).2 q = some (Node.file d) := by
  unfold strip_image
  cases hs : status fs t with
  | none => exact h
  | some n =>
    cases n with
    | dir => exact h
    | file c =>
      simp only
      cases he : env.exiv2 c with
      | mk ok wr =>
        cases wr with
        | none => exact h
        | some c1 => exact fs_set_file_keeps _ _ _ _ h

theorem run_qpdf_keeps (env : Env) (fs : FS) (cmd dst : Str) (q : Key)
    (h : ∃ d, fs q = some (Node.file d)) :
    ∃ d, (run_qpdf env fs cmd dst).2 q = some (Node.file d) := by
  unfold run_qpdf
  cases he : env.system_qpdf cmd fs with
  | mk rc wr =>
    cases wr with
    | none => exact h
    | some c => exact fs_set_file_keeps _ _ _ _ h

theorem clean_image_copy_keeps (env : Env) (p out : Str) (opt : Options) (w : World)
    (hin : opt.in_place = false) (q : Key) (h : ∃ d, w.fs q = some (Node.file d)) :
    ∃ d, (clean_image env p out opt w).2.fs q = some (Node.file d) := by
  rw [clean_image_copy env p out opt w hin]
  cases hc : copy_file w.fs p out true with
  | error e => exact h
  | ok fs1 =>
    simp only
    apply strip_image_keeps
    obtain ⟨c, _, _, h3⟩ := copy_file_frame _ _ _ _ _ hc
    rw [h3]
    exact fs_set_file_keeps _ _ _ _ h

theorem clean_pdf_copy_keeps (env : Env) (p out : Str) (opt : Options) (w : World)
    (hin : opt.in_place = false) (q : Key) (h : ∃ d, w.fs q = some (Node.file d)) :
    ∃ d, (clean_pdf env p out opt w).2.fs q = some (Node.file d) := by
  have hfs := find_qpdf_fs env w
  unfold clean_pdf
  simp only [hin, Bool.false_eq_true, if_false]
  split
  · rw [hfs]; exact h
  · simp only
    apply run_qpdf_keeps
    rw [hfs]; exact h

/-- One command-line step on a regular file in copy mode without `out_dir`: no
exception, the file is counted, an unsupported file is reported and not cleaned, a
supported one adds at most one to the cleaned count and is not reported, and every
regular file is still a regular file afterwards. -/
theorem handle_file_copy_counts (env : Env) (opt : Options) (p : Str) (st : CliState)
    (hin : opt.in_place = false) (hout : opt.out_dir = [])
    (hreg : is_regular_file st.w.fs p = true) :
    (handle_file env opt p st).1 = Except.ok ()
    ∧ (handle_file env opt p st).2.total = st.total + 1
    ∧ (handle_file env opt p st).2.ok
        ≤ st.ok + (if is_image p || is_pdf p then 1 else 0)
    ∧ (handle_file env opt p st).2.warned_unsupported
        = st.warned_unsupported ++ (if is_image p || is_pdf p then [] else [p])
    ∧ ∀ q, (∃ d, st.w.fs q = some (Node.file d)) →
        ∃ d, (handle_file env opt p st).2.w.fs q = some (Node.file d) := by
  unfold handle_file
  simp only [hreg, Bool.not_true, Bool.false_eq_true, if_false]
  rw [resolve_out_sibling env opt p st.w.fs hin hout]
  simp only
  cases hi : is_image p with
  | true =>
    simp only [if_true, Bool.true_or, List.append_nil]
    refine ⟨trivial, trivial, ?_, trivial, ?_⟩
    · split <;> omega
    · intro q hq
      exact clean_image_copy_keeps env p _ opt _ hin q hq
  | false =>
    simp only [Bool.false_eq_true, if_false, Bool.false_or]
    cases hd : is_pdf p with
    | true =>
      simp only [if_true, List.append_nil]
      obtain ⟨⟨b, hb⟩, _⟩ := clean_pdf_copy_frame env p (clean_sibling p) opt
        { st.w with fs := st.w.fs } hin
      have hk := clean_pdf_copy_keeps env p (clean_sibling p) opt { st.w with fs := st.w.fs } hin
      cases hc : clean_pdf env p (clean_sibling p) opt { st.w with fs := st.w.fs } with
      | mk r w2 =>
        rw [hc] at hb hk
        simp only at hb hk
        subst hb
        simp only
        refine ⟨trivial, trivial, ?_, trivial, fun q hq => hk q hq⟩
        split <;> omega
    | false =>
      simp only [Bool.false_eq_true, if_false]
      exact ⟨trivial, trivial, by omega, trivial, fun q hq => hq⟩

/-- The batch loop over inputs that are all regular files, in copy mode without
`out_dir`: it completes, counts every input, reports the unsupported ones, and the
cleaned count grows by at most the number of inputs that are images or documents. -/
theorem handle_all_copy_counts (env : Env) (opt : Options) (hin : opt.in_place = false)
    (hout : opt.out_dir = []) (inputs : List Str) :
    ∀ st : CliState, (∀ p ∈ inputs, is_regular_file st.w.fs p = true) →
      (handle_all env opt inputs st).1 = Except.ok ()
      ∧ (handle_all env opt inputs st).2.total = st.total + inputs.length
      ∧ (handle_all env opt inputs st).2.ok
          ≤ st.ok + (inputs.filter (fun p => is_image p || is_pdf p)).length
      ∧ (handle_all env opt inputs st).2.warned_unsupported
          = st.warned_unsupported ++ inputs.filter (fun p => !(is_image p || is_pdf p)) := by
  induction inputs with
  | nil => intro st _; simp [handle_all]
  | cons f fs ih =>
    intro st hall
    have hf : is_regular_file st.w.fs f = true := hall f (List.mem_cons_self _ _)
    obtain ⟨h1, h2, h3, h4, h5⟩ := handle_file_copy_counts env opt f st hin hout hf
    have hh : handle env opt f st = handle_file env opt f st :=
      (handle_of_regular env opt f st hf).1
    unfold handle_all
    rw [hh]
    cases hc : handle_file env opt f st with
    | mk r st1 =>
      rw [hc] at h1 h2 h3 h4 h5
      simp only at h1 h2 h3 h4 h5
      subst h1
      simp only
      have hall1 : ∀ p ∈ fs, is_regular_file st1.w.fs p = true := by
        intro p hp
        have := (is_regular_file_iff st.w.fs p).mp (hall p (List.mem_cons_of_mem _ hp))
        exact (is_regular_file_iff st1.w.fs p).mpr ⟨this.1, h5 _ this.2⟩
      obtain ⟨i1, i2, i3, i4⟩ := ih st1 hall1
      refine ⟨i1, ?_, ?_, ?_⟩
      · rw [i2, h2]; simp only [List.length_cons]; omega
      · cases hk : (is_image f || is_pdf f) with
        | true =>
          rw [hk] at h3
          simp only [if_true] at h3
          simp only [List.filter, hk, List.length_cons]
          omega
        | false =>
          rw [hk] at h3
          simp only [Bool.false_eq_true, if_false] at h3
          simp only [List.filter, hk]
          omega
      · rw [i4, h4]
        cases hk : (is_image f || is_pdf f) with
        | true => simp [List.filter, hk]
        | false => simp [List.filter, hk]

theorem worker_outcomes_successes (env : Env) (opt : Options) (files : List Str) :
    ∀ w, ((worker_outcomes env opt files w).filter (fun o => o.2)).length
      ≤ (files.filter (fun p => is_image p || is_pdf p)).length := by
  induction files with
  | nil => intro w; simp [worker_outcomes]
  | cons f fs ih =>
    intro w
    obtain ⟨_, _, h3⟩ := worker_try_message env opt f w
    have := ih (worker_try env opt f w).2.2
    unfold worker_outcomes
    cases hs : (worker_try env opt f w).2.1 with
    | false =>
      simp only [List.filter, hs]
      cases hk : (is_image f || is_pdf f) with
      | true => simp only [List.length_cons]; omega
      | false => exact this
    | true =>
      have hk : (is_image f || is_pdf f) = true := by
        rcases h3 hs with h | h <;> simp [h]
      simp only [List.filter, hs, hk, List.length_cons]
      omega

end CleanMeta

namespace CleanMeta

/-- C14, as stated, fails. On the inputs `photo.jpg`, `doc.pdf`, `readme.txt` in copy
mode the run yields the three outcomes of the claim (`photo.clean.jpg` and
`doc.clean.pdf` are written, `readme.txt` is reported as unsupported), two inputs are
images or documents, and yet the summary of the command-line driver reports 3 files
("2 / 3", exit code 2) and that of the worker "2 out of 3 files". -/
theorem summary_counts_unsupported_file_example :
    (["photo.jpg".toList, "doc.pdf".toList, "readme.txt".toList].filter
        (fun p => is_image p || is_pdf p)).length = 2
    ∧ (cli_main demo_env ["photo.jpg".toList, "doc.pdf".toList, "readme.txt".toList]
          demo_world).1 = CliResult.exit 2 (some (2, 3))
    ∧ (cli_main demo_env ["photo.jpg".toList, "doc.pdf".toList, "readme.txt".toList]
          demo_world).2.fs (key "photo.clean.jpg".toList) = some (Node.file [1])
    ∧ (cli_main demo_env ["photo.jpg".toList, "doc.pdf".toList, "readme.txt".toList]
          demo_world).2.fs (key "doc.clean.pdf".toList) = some (Node.file [7])
    ∧ (handle_all demo_env {} ["photo.jpg".toList, "doc.pdf".toList, "readme.txt".toList]
          demo_state).2.warned_unsupported = ["readme.txt".toList]
    ∧ (process_files_worker demo_env
          (demo_gui ["photo.jpg".toList, "doc.pdf".toList, "readme.txt".toList])).log_queue
        = ["[OK] photo.jpg (image) - metadata removed".toList,
           "[OK] doc.pdf (PDF) - metadata removed".toList,
           "[WARNING] Unsupported file type: readme.txt".toList,
           "\n=== PROCESSING COMPLETE ===".toList,
           "Successfully processed 2 out of 3 files.".toList] := by
  decide

/-- C14, amended. The summary counts every file handed to the per-file step, whatever
its kind. The worker reports, as its last two lines, the number of successful files and
the number of selected files, the first being at most the number of selected files that
are images or documents. The command-line driver, in copy mode without `out_dir` on
inputs that are all regular files, completes, reports as total the number of inputs and
as cleaned at most the number of inputs that are images or documents, and exits with 0
exactly when the two reported numbers are equal. -/
theorem summary_counts_every_processed_file (env : Env) :
    (∀ g : Gui, ∃ k : Nat,
        (process_files_worker env g).log_queue
          = g.log_queue
            ++ (worker_outcomes env (gui_options g) g.selected_files g.w).map Prod.fst
            ++ summary_lines k g.selected_files.length
        ∧ k = ((worker_outcomes env (gui_options g) g.selected_files g.w).filter
                (fun o => o.2)).length
        ∧ k ≤ (g.selected_files.filter (fun p => is_image p || is_pdf p)).length)
    ∧ (∀ (args : List Str) (w : World) (opt : Options) (inputs : List Str),
        parse_args args {} [] = Parsed.run opt inputs → inputs ≠ [] →
        opt.in_place = false → opt.out_dir = [] →
        (∀ p ∈ inputs, is_regular_file w.fs p = true) →
        ∃ k : Nat,
          (cli_main env args w).1
            = CliResult.exit (if k = inputs.length then 0 else 2) (some (k, inputs.length))
          ∧ k ≤ (inputs.filter (fun p => is_image p || is_pdf p)).length) := by
  constructor
  · intro g
    exact ⟨_, worker_queue env g, rfl, worker_outcomes_successes env _ _ _⟩
  · intro args w opt inputs hp hne hin hout hreg
    obtain ⟨h1, h2, h3, _⟩ := handle_all_copy_counts env opt hin hout inputs
      { total := 0, ok := 0, warned_unsupported := [], warned_skipping_dir := [], w := w } hreg
    cases hrun : handle_all env opt inputs
        { total := 0, ok := 0, warned_unsupported := [], warned_skipping_dir := [], w := w } with
    | mk r st =>
      rw [hrun] at h1 h2 h3
      simp only at h1 h2 h3
      subst h1
      refine ⟨st.ok, ?_, by omega⟩
      unfold cli_main
      rw [hp]
      simp only [hne, if_false, hrun]
      rw [h2]
      simp

/-- C14 amended, on the three inputs of the worked examples: the total reported is 3. -/
theorem summary_counts_every_processed_file_witness :
    ∃ k : Nat,
      (cli_main demo_env ["photo.jpg".toList, "doc.pdf".toList, "readme.txt".toList]
          demo_world).1
        = CliResult.exit
            (if k = ["photo.jpg".toList, "doc.pdf".toList, "readme.txt".toList].length
              then 0 else 2)
            (some (k, ["photo.jpg".toList, "doc.pdf".toList, "readme.txt".toList].length))
      ∧ k ≤ (["photo.jpg".toList, "doc.pdf".toList, "readme.txt".toList].filter
              (fun p => is_image p || is_pdf p)).length :=
  (summary_counts_every_processed_file demo_env).2
    ["photo.jpg".toList, "doc.pdf".toList, "readme.txt".toList] demo_world {}
    ["photo.jpg".toList, "doc.pdf".toList, "readme.txt".toList]
    (by decide) (by decide) rfl rfl (by decide)

end CleanMeta

namespace CleanMeta

/-! ## Regular files stay regular files -/

end CleanMeta

namespace CleanMeta

/-! ## Directory inputs -/

end CleanMeta

namespace CleanMeta

/-! ## Quoting for the shell -/

theorem shell_escape_fold (s : Str) :
    ∀ init : Str,
      s.foldl
        (fun out c =>
          if c = squote then out ++ [squote, backslash, squote, squote] else out ++ [c])
        init
      = init ++ escape_body s := by
  induction s with
  | nil => intro init; simp [escape_body]
  | cons c cs ih =>
    intro init
    simp only [List.foldl_cons, escape_body, escape_char]
    rw [ih]
    split <;> simp

theorem shell_escape_eq (s : Str) : shell_escape s = squote :: (escape_body s ++ [squote]) := by
  unfold shell_escape
  rw [shell_escape_fold]
  simp

theorem sh_go_quote_in (rest : Str) (cur : Option Str) (acc : List Str) :
    sh_words_go (squote :: rest) true cur acc = sh_words_go rest false cur acc := by
  rw [sh_words_go]
  simp

theorem sh_go_char_in (c : Char) (hc : c ≠ squote) (rest : Str) (cur : Option Str)
    (acc : List Str) :
    sh_words_go (c :: rest) true cur acc
      = sh_words_go rest true (some (cur.getD [] ++ [c])) acc := by
  rw [sh_words_go]
  simp [hc]

theorem sh_go_quote_out (rest : Str) (cur : Option Str) (acc : List Str) :
    sh_words_go (squote :: rest) false cur acc
      = sh_words_go rest true (some (cur.getD [])) acc := by
  conv => lhs; unfold sh_words_go
  simp

theorem sh_go_backslash (d : Char) (rest : Str) (cur : Option Str) (acc : List Str) :
    sh_words_go (backslash :: d :: rest) false cur acc
      = sh_words_go rest false (some (cur.getD [] ++ [d])) acc := by
  have hb : backslash ≠ squote := by decide
  conv => lhs; unfold sh_words_go
  simp [hb]

theorem escape_body_quote (cs : Str) :
    escape_body (squote :: cs) = squote :: backslash :: squote :: squote :: escape_body cs := by
  simp [escape_body, escape_char]

theorem escape_body_char (c : Char) (hc : c ≠ squote) (cs : Str) :
    escape_body (c :: cs) = c :: escape_body cs := by
  simp [escape_body, escape_char, hc]

/-- Reading the body of an escaped string from inside the quotes up to the closing
quote gives back the string. -/
theorem sh_words_go_body (s : Str) :
    ∀ (cur : Str) (acc : List Str) (rest : Str),
      sh_words_go (escape_body s ++ squote :: rest) true (some cur) acc
        = sh_words_go rest false (some (cur ++ s)) acc := by
  induction s with
  | nil =>
    intro cur acc rest
    show sh_words_go (squote :: rest) true (some cur) acc = _
    rw [sh_go_quote_in]
    simp
  | cons c cs ih =>
    intro cur acc rest
    by_cases hc : c = squote
    · subst hc
      rw [escape_body_quote]
      show sh_words_go (squote :: backslash :: squote :: squote
          :: (escape_body cs ++ squote :: rest)) true (some cur) acc = _
      rw [sh_go_quote_in, sh_go_backslash, sh_go_quote_out, ih]
      simp
    · rw [escape_body_char c hc]
      show sh_words_go (c :: (escape_body cs ++ squote :: rest)) true (some cur) acc = _
      rw [sh_go_char_in c hc, ih]
      simp

/-- Reading an escaped string outside quotes adds the string to the word being read. -/
theorem sh_words_go_escape (s : Str) (cur : Option Str) (acc : List Str) (rest : Str) :
    sh_words_go (shell_escape s ++ rest) false cur acc
      = sh_words_go rest false (some (cur.getD [] ++ s)) acc := by
  rw [shell_escape_eq]
  show sh_words_go (squote :: ((escape_body s ++ [squote]) ++ rest)) false cur acc = _
  rw [sh_go_quote_out, List.append_assoc]
  exact sh_words_go_body s _ acc rest

theorem escape_body_no_nul (s : Str) (hs : nul ∉ s) : nul ∉ escape_body s := by
  induction s with
  | nil => simp [escape_body]
  | cons c cs ih =>
    have hc : nul ≠ c := fun h => hs (by rw [h]; exact List.mem_cons_self _ _)
    have hcs : nul ∉ cs := fun h => hs (List.mem_cons_of_mem _ h)
    have hq : nul ≠ squote := by decide
    have hb : nul ≠ backslash := by decide
    intro h
    simp only [escape_body, escape_char, List.mem_append] at h
    rcases h with h | h
    · split at h
      · simp [hq, hb] at h
      · simp [hc] at h
    · exact ih hcs h

theorem shell_escape_no_nul (s : Str) (hs : nul ∉ s) : nul ∉ shell_escape s := by
  rw [shell_escape_eq]
  have hq : nul ≠ squote := by decide
  have := escape_body_no_nul s hs
  simp [hq, this]

theorem c_str_of_no_nul (s : Str) (hs : nul ∉ s) : c_str s = s := by
  unfold c_str
  rw [List.takeWhile_eq_self_iff]
  intro c hc
  have : c ≠ nul := fun h => hs (h ▸ hc)
  simpa using this

end CleanMeta

namespace CleanMeta

theorem sh_go_space (rest : Str) (w : Str) (acc : List Str) :
    sh_words_go (" ".toList ++ rest) false (some w) acc
      = sh_words_go rest false none (acc ++ [w]) := by
  show sh_words_go (' ' :: rest) false (some w) acc = _
  conv => lhs; unfold sh_words_go
  have h1 : ' ' ≠ squote := by decide
  have h2 : ' ' ≠ backslash := by decide
  have h3 : sh_blank ' ' = true := by decide
  simp [h1, h2, h3]

theorem sh_go_options (rest : Str) (w : Str) (acc : List Str) :
    sh_words_go (" --clear-metadata --empty-xmp --linearize ".toList ++ rest) false (some w) acc
      = sh_words_go rest false none (acc ++ [w] ++ qpdf_options) := by
  have hsp := sh_go_space rest "--linearize".toList
    (acc ++ [w, "--clear-metadata".toList, "--empty-xmp".toList])
  simp [sh_words_go, squote, backslash, sh_blank, sh_plain, qpdf_options] at hsp ⊢
  exact hsp

/-- C15. For a string without NUL, `shell_escape` gives a text that begins and ends
with a single quote and contains no NUL, and the shell reads it as exactly one word, the
string itself, whatever its characters (quotes, blanks, `;`, `$`, backquotes); and the
qpdf command line built from three escaped strings is read as the program, the three
options, the source and the destination, none of their characters being interpreted. -/
theorem shell_escape_is_one_literal_word (s : Str) (hs : nul ∉ s) :
    shell_escape s = squote :: (escape_body s ++ [squote])
    ∧ (shell_escape s).head? = some squote
    ∧ (shell_escape s).getLast? = some squote
    ∧ 2 ≤ (shell_escape s).length
    ∧ nul ∉ shell_escape s
    ∧ c_str (shell_escape s) = shell_escape s
    ∧ sh_words (c_str (shell_escape s)) = some [s]
    ∧ (∀ q d : Str, nul ∉ q → nul ∉ d →
        sh_words (c_str (qpdf_cmd q s d)) = some ([q] ++ qpdf_options ++ [s, d])
        ∧ sh_words (c_str (qpdf_cmd q d s)) = some ([q] ++ qpdf_options ++ [d, s])) := by
  have heq := shell_escape_eq s
  have hnn := shell_escape_no_nul s hs
  have hc := c_str_of_no_nul _ hnn
  have hcmd : ∀ a b c : Str, nul ∉ a → nul ∉ b → nul ∉ c →
      sh_words (c_str (qpdf_cmd a b c)) = some ([a] ++ qpdf_options ++ [b, c]) := by
    intro a b c ha hb hcn
    have hno : nul ∉ qpdf_cmd a b c := by
      unfold qpdf_cmd
      have h1 := shell_escape_no_nul a ha
      have h2 := shell_escape_no_nul b hb
      have h3 := shell_escape_no_nul c hcn
      have h4 : nul ∉ " --clear-metadata --empty-xmp --linearize ".toList := by decide
      have h5 : nul ∉ " ".toList := by decide
      simp only [List.mem_append, not_or]
      exact ⟨⟨⟨⟨h1, h4⟩, h2⟩, h5⟩, h3⟩
    rw [c_str_of_no_nul _ hno]
    unfold sh_words qpdf_cmd
    rw [List.append_assoc, List.append_assoc, List.append_assoc, sh_words_go_escape,
      sh_go_options, sh_words_go_escape, sh_go_space]
    have := sh_words_go_escape c none ([] ++ [none.getD [] ++ a] ++ qpdf_options
      ++ [none.getD [] ++ b]) []
    rw [List.append_nil] at this
    rw [this]
    simp [sh_words_go]
  refine ⟨heq, ?_, ?_, ?_, hnn, hc, ?_, ?_⟩
  · rw [heq]; rfl
  · rw [heq, ← List.cons_append, List.getLast?_append]
    simp
  · rw [heq]; simp
  · rw [hc]
    unfold sh_words
    have := sh_words_go_escape s none [] []
    rw [List.append_nil] at this
    rw [this]
    simp [sh_words_go]
  · intro q d hq hd
    exact ⟨hcmd q s d hq hs hd, hcmd q d s hq hd hs⟩

/-- C15 at a file name with a quote, blanks, a semicolon and a dollar sign. -/
theorem shell_escape_is_one_literal_word_witness :
    nul ∉ "it".toList ++ [squote] ++ "s; rm $HOME x.pdf".toList
    ∧ sh_words (c_str (shell_escape ("it".toList ++ [squote] ++ "s; rm $HOME x.pdf".toList)))
        = some ["it".toList ++ [squote] ++ "s; rm $HOME x.pdf".toList]
    ∧ sh_words ("it".toList ++ [squote] ++ "s; rm $HOME x.pdf".toList) = none :=
  ⟨by decide,
    (shell_escape_is_one_literal_word ("it".toList ++ [squote] ++ "s; rm $HOME x.pdf".toList)
      (by decide)).2.2.2.2.2.2.1,
    by decide⟩

end CleanMeta
